import Mathlib

/-!
# Verification of the rgoap regressive planner (`rgoap/planning.py`)

Shallow embedding of `Node`, `Planner` and `PlanExecutor` from
`src/rgoap/src/rgoap/planning.py`.  The domain model (`WorldState`,
`Condition`, `Action`, `Goal`) lives in `common.py`, which is not part of the
sources; those definitions are modelled from the specification's interface
description (sections 2 and 3 of the spec) and are marked as such.

Python exceptions are modelled with an `Except PyExc` result; Python `float`
arithmetic in the heuristic is modelled with exact fractions (`Frac`; the
heuristic only ever divides small integers, where `float` arithmetic is
exact).  Conditions are identified by natural numbers, mirroring the
globally registered `Condition` keys.
-/

namespace RGOAP

/-- A condition value.  Python condition values are either numbers (modelled
as `Int`) or non-numeric data such as strings (modelled as `String`);
subtracting non-numbers raises `TypeError`, which the heuristic catches. -/
inductive Value : Type where
  | num (n : Int) : Value
  | sym (s : String) : Value
deriving DecidableEq, Repr

/-- Python's numbers (action costs, heuristic distances) are modelled as
fractions with a positive denominator.  The heuristic only ever adds,
divides and compares small integers, where `float` arithmetic is exact, so
this model mirrors the Python values.  (Mathlib's `Rat` is not used because
its arithmetic does not reduce inside the kernel, which would prevent
witnesses from evaluating the planner on concrete inputs.) -/
structure Frac : Type where
  num : Int
  den : Nat
  den_pos : 0 < den

namespace Frac

instance : DecidableEq Frac := fun a b =>
  decidable_of_iff (a.num = b.num ∧ a.den = b.den) (by
    cases a; cases b; simp [Frac.mk.injEq])

def ofNat (n : Nat) : Frac := ⟨n, 1, one_pos⟩

instance : OfNat Frac n := ⟨Frac.ofNat n⟩

def add (a b : Frac) : Frac :=
  ⟨a.num * b.den + b.num * a.den, a.den * b.den, Nat.mul_pos a.den_pos b.den_pos⟩

instance : Add Frac := ⟨Frac.add⟩

/-- Value-level order on fractions, by cross-multiplication (denominators
are positive by construction). -/
def le (a b : Frac) : Prop := a.num * b.den ≤ b.num * a.den

def lt (a b : Frac) : Prop := a.num * b.den < b.num * a.den

instance : LE Frac := ⟨Frac.le⟩

instance : LT Frac := ⟨Frac.lt⟩

instance decLe (a b : Frac) : Decidable (a ≤ b) :=
  inferInstanceAs (Decidable (a.num * b.den ≤ b.num * a.den))

instance decLt (a b : Frac) : Decidable (a < b) :=
  inferInstanceAs (Decidable (a.num * b.den < b.num * a.den))

/-- Python's two-argument `min`: the first argument wins ties. -/
def fmin (a b : Frac) : Frac := if a ≤ b then a else b

theorem not_lt {a b : Frac} : ¬a < b ↔ b ≤ a := Int.not_lt

theorem le_refl (a : Frac) : a ≤ a := Int.le_refl _

theorem le_of_not_le {a b : Frac} (h : ¬a ≤ b) : b ≤ a :=
  Int.le_of_lt (Int.lt_of_not_ge h)

theorem le_trans {a b c : Frac} (hab : a ≤ b) (hbc : b ≤ c) : a ≤ c := by
  have hb : (0 : Int) < b.den := Int.ofNat_pos.mpr b.den_pos
  have h1 : a.num * c.den * b.den ≤ c.num * a.den * b.den := by
    have h2 : a.num * b.den * c.den ≤ b.num * a.den * c.den :=
      Int.mul_le_mul_of_nonneg_right hab (by positivity)
    have h3 : b.num * c.den * a.den ≤ c.num * b.den * a.den :=
      Int.mul_le_mul_of_nonneg_right hbc (by positivity)
    nlinarith
  exact Int.le_of_mul_le_mul_right h1 hb

theorem lt_of_lt_of_le {a b c : Frac} (hab : a < b) (hbc : b ≤ c) : a < c := by
  have hb : (0 : Int) < b.den := Int.ofNat_pos.mpr b.den_pos
  have ha : (0 : Int) < a.den := Int.ofNat_pos.mpr a.den_pos
  have hc : (0 : Int) < c.den := Int.ofNat_pos.mpr c.den_pos
  have hab' : a.num * b.den < b.num * a.den := hab
  have hbc' : b.num * c.den ≤ c.num * b.den := hbc
  have h1 : a.num * c.den * b.den < c.num * a.den * b.den := by nlinarith
  exact Int.lt_of_mul_lt_mul_right h1 (Int.le_of_lt hb)

theorem le_of_lt {a b : Frac} (h : a < b) : a ≤ b := Int.le_of_lt h

theorem lt_of_le_of_lt {a b c : Frac} (hab : a ≤ b) (hbc : b < c) : a < c := by
  have hb : (0 : Int) < b.den := Int.ofNat_pos.mpr b.den_pos
  have ha : (0 : Int) < a.den := Int.ofNat_pos.mpr a.den_pos
  have hc : (0 : Int) < c.den := Int.ofNat_pos.mpr c.den_pos
  have hab' : a.num * b.den ≤ b.num * a.den := hab
  have hbc' : b.num * c.den < c.num * b.den := hbc
  have h1 : a.num * c.den * b.den < c.num * a.den * b.den := by nlinarith
  exact Int.lt_of_mul_lt_mul_right h1 (Int.le_of_lt hb)

theorem fmin_le_left (a b : Frac) : fmin a b ≤ a := by
  unfold fmin
  split
  · exact le_refl a
  · next h => exact le_of_not_le h

/-- The rational number a fraction denotes. -/
def val (a : Frac) : Rat := (a.num : Rat) / (a.den : Rat)

/-- Value-level equality of fractions (Python's `==` on numbers). -/
def eqv (a b : Frac) : Prop := a.num * b.den = b.num * a.den

instance decEqv (a b : Frac) : Decidable (eqv a b) :=
  inferInstanceAs (Decidable (_ = _))

theorem den_ne_zero_rat (a : Frac) : ((a.den : Nat) : Rat) ≠ 0 := by
  exact_mod_cast Nat.pos_iff_ne_zero.mp a.den_pos

theorem eqv_iff_val {a b : Frac} : eqv a b ↔ val a = val b := by
  unfold eqv val
  rw [div_eq_div_iff (den_ne_zero_rat a) (den_ne_zero_rat b)]
  constructor
  · intro h; exact_mod_cast congrArg (fun z : Int => (z : Rat)) h
  · intro h; exact_mod_cast h

theorem val_add (a b : Frac) : val (a + b) = val a + val b := by
  show val (Frac.add a b) = _
  unfold val Frac.add
  simp only
  rw [div_add_div _ _ (den_ne_zero_rat a) (den_ne_zero_rat b)]
  push_cast
  ring_nf

theorem val_ofNat (n : Nat) : val (Frac.ofNat n) = (n : Rat) := by
  unfold val ofNat; simp

theorem val_zero : val (0 : Frac) = 0 := val_ofNat 0

end Frac


/-- Equality of `Except` results is decidable when both components' are
(used by witnesses that evaluate the embedded functions on concrete
inputs). -/
instance exceptDecEq {ε α : Type} [DecidableEq ε] [DecidableEq α] :
    DecidableEq (Except ε α)
  | .ok a, .ok b => decidable_of_iff (a = b) (by simp)
  | .error a, .error b => decidable_of_iff (a = b) (by simp)
  | .ok _, .error _ => isFalse (by simp)
  | .error _, .ok _ => isFalse (by simp)

/-- The Python exceptions that can escape or be caught in `planning.py`. -/
inductive PyExc : Type where
  | keyError : PyExc
  | typeError : PyExc
  | zeroDivisionError : PyExc
  | assertionError : PyExc
  | indexError : PyExc
deriving DecidableEq, Repr

/-- Modelled from the spec: a `WorldState` is a mapping from `Condition` to
value (section 3).  It is represented as an association list in which the
most recent binding of a condition shadows older ones (`set` prepends). -/
structure WorldState : Type where
  vals : List (Nat × Value)
deriving DecidableEq, Repr

namespace WorldState

/-- Modelled from the spec: `get_condition_value(c)` "fails with a lookup
error if absent" -- `none` stands for the `KeyError` case. -/
def get_condition_value (ws : WorldState) (c : Nat) : Option Value :=
  ws.vals.lookup c

/-- Modelled from the spec: setting a condition value (used by
`apply_preconditions` implementations); the new binding shadows older ones. -/
def set (ws : WorldState) (c : Nat) (v : Value) : WorldState :=
  ⟨(c, v) :: ws.vals⟩

/-- The conditions a worldstate cares about, each listed once. -/
def dom (ws : WorldState) : List Nat :=
  (ws.vals.map Prod.fst).dedup

/-- Modelled from the spec: `matches(other)` is "true iff this state
satisfies every condition `other` cares about" (section 3).  (`matches` is a
Lean keyword, hence the trailing prime.) -/
def matches' (self other : WorldState) : Bool :=
  other.dom.all fun c => self.get_condition_value c == other.get_condition_value c

/-- Modelled from the spec: `unsatisfied_conditions(other)` is the "set of
conditions differing from a reference state"; here the conditions this
worldstate cares about whose value differs in `other`. -/
def get_unsatisfied_conditions (self other : WorldState) : List Nat :=
  self.dom.filter fun c => other.get_condition_value c ≠ self.get_condition_value c

end WorldState

/-- Modelled from the spec: an `Action` as the opaque interface the planner
and executor consume (section 3): a fixed scalar cost, and the operations
`apply_preconditions`, `is_valid`, `has_satisfying_effects`,
`check_freeform_context` and `run`.  The `id` field stands for Python object
identity and is used by the instrumented executor to report which actions
were run. -/
structure Action : Type where
  id : Nat
  cost : Frac
  apply_preconditions : WorldState → WorldState → WorldState
  is_valid : WorldState → Bool
  has_satisfying_effects : WorldState → WorldState → List Nat → Bool
  check_freeform_context : Bool
  run : WorldState → WorldState

/-- Modelled from the spec: a `Goal` exposes `apply_preconditions`, which
"produces the 'done' state" (sections 3 and 4.2); the usability score is
owned by the control loop and not needed here. -/
structure Goal : Type where
  apply_preconditions : WorldState → WorldState

/-- One vertex of the regressive search tree (`planning.py`, class `Node`).
`heuristic_distance` is `none` until `_calc_heuristic_distance_for_node`
sets it; `possible_prev_nodes` is empty until `get_child_nodes` fills it. -/
inductive Node : Type where
  | mk (worldstate : WorldState) (action : Option Action)
       (possible_prev_nodes : List Node)
       (parent_nodes_path_list : List Node)
       (parent_actions_path_list : List Action)
       (heuristic_distance : Option Frac) : Node

namespace Node

def worldstate : Node → WorldState
  | .mk ws _ _ _ _ _ => ws

def action : Node → Option Action
  | .mk _ a _ _ _ _ => a

def possible_prev_nodes : Node → List Node
  | .mk _ _ p _ _ _ => p

def parent_nodes_path_list : Node → List Node
  | .mk _ _ _ p _ _ => p

def parent_actions_path_list : Node → List Action
  | .mk _ _ _ _ p _ => p

def heuristic_distance : Node → Option Frac
  | .mk _ _ _ _ _ h => h

@[simp] theorem worldstate_mk (ws a p ps as h) :
    (Node.mk ws a p ps as h).worldstate = ws := rfl

@[simp] theorem action_mk (ws a p ps as h) :
    (Node.mk ws a p ps as h).action = a := rfl

@[simp] theorem possible_prev_nodes_mk (ws a p ps as h) :
    (Node.mk ws a p ps as h).possible_prev_nodes = p := rfl

@[simp] theorem parent_nodes_path_list_mk (ws a p ps as h) :
    (Node.mk ws a p ps as h).parent_nodes_path_list = ps := rfl

@[simp] theorem parent_actions_path_list_mk (ws a p ps as h) :
    (Node.mk ws a p ps as h).parent_actions_path_list = as := rfl

@[simp] theorem heuristic_distance_mk (ws a p ps as h) :
    (Node.mk ws a p ps as h).heuristic_distance = h := rfl

/-- Replace the worldstate (Python mutates `node.worldstate` in place). -/
def setWorldstate : Node → WorldState → Node
  | .mk _ a p ps as h, ws => .mk ws a p ps as h

/-- Record the computed heuristic (Python sets `self.heuristic_distance`). -/
def setHeuristic : Node → Frac → Node
  | .mk ws a p ps as _, h => .mk ws a p ps as (some h)

/-- Record the children (Python appends to `self.possible_prev_nodes`). -/
def setPossiblePrev : Node → List Node → Node
  | .mk ws a _ ps as h, p => .mk ws a p ps as h

/-- `is_goal()`: true iff the action is unset. -/
def is_goal (n : Node) : Bool :=
  n.action.isNone

/-- `parent_node()`: the last element of the parent-nodes chain;
`none` models the `IndexError` on an empty chain. -/
def parent_node (n : Node) : Option Node :=
  n.parent_nodes_path_list.getLast?

/-- `cost()`: 0 for the goal node, else the originating action's cost. -/
def cost (n : Node) : Frac :=
  match n.action with
  | none => 0
  | some a => a.cost

/-- `path_cost()`: own cost plus the sum of `cost()` over the parent chain. -/
def path_cost (n : Node) : Frac :=
  n.cost + (n.parent_nodes_path_list.map cost).sum

/-- `total_cost()`: `path_cost() + heuristic_distance`.  Python would raise
on an unset heuristic; the planner only ever sorts nodes whose heuristic has
been computed, so the `getD 0` branch is never exercised there. -/
def total_cost (n : Node) : Frac :=
  n.path_cost + n.heuristic_distance.getD 0

end Node

/-- One condition's contribution inside the heuristic loop of
`_calc_heuristic_distance_for_node`: the `KeyError` on the goal lookup is
caught and yields the default distance 1; the `KeyError`s of the node/start
lookups are uncaught; inside the `try` block a `TypeError` from either
subtraction yields the default distance 1, while the division by a zero
total distance raises an uncaught `ZeroDivisionError`; finally the assertion
`relative_distance > 0` is checked. -/
def conditionDistance (goalWs nodeWs startWs : WorldState) (c : Nat) :
    Except PyExc Frac :=
  match goalWs.get_condition_value c with
  | none => .ok 1
  | some goal_value =>
    match nodeWs.get_condition_value c with
    | none => .error .keyError
    | some node_value =>
      match startWs.get_condition_value c with
      | none => .error .keyError
      | some start_value =>
        match goal_value, start_value with
        | .num g, .num s =>
          let distance_total : Nat := (g - s).natAbs
          match node_value with
          | .num nv =>
            let distance_remaining : Nat := (nv - s).natAbs
            if h : distance_total = 0 then .error .zeroDivisionError
            else
              let relative_distance : Frac :=
                ⟨distance_remaining, distance_total, Nat.pos_of_ne_zero h⟩
              if relative_distance ≤ 0 then .error .assertionError
              else .ok relative_distance
          | .sym _ => .ok 1
        | _, _ => .ok 1

namespace Node

/-- `_calc_heuristic_distance_for_node(start_worldstate)`: asserts the
heuristic has not been computed yet, then sets it; the goal node counts its
unsatisfied conditions, other nodes sum the per-condition contributions and
clamp the total to the number of unsatisfied conditions. -/
def calc_heuristic_distance_for_node (n : Node) (start_worldstate : WorldState) :
    Except PyExc Node :=
  if n.heuristic_distance.isSome then .error .assertionError
  else
    let unsat := n.worldstate.get_unsatisfied_conditions start_worldstate
    match n.action with
    | none => .ok (n.setHeuristic (Frac.ofNat unsat.length))
    | some _ =>
      match n.parent_nodes_path_list.head? with
      | none => .error .indexError
      | some goalNode => do
        let total ← unsat.foldlM
          (fun acc c => do
            let d ← conditionDistance goalNode.worldstate n.worldstate
              start_worldstate c
            pure (acc + d))
          (0 : Frac)
        .ok (n.setHeuristic (Frac.fmin (Frac.ofNat unsat.length) total))

/-- `get_child_nodes(actions, start_worldstate)`: asserts the node has not
been expanded, then builds one child per action (copied worldstate regressed
through `apply_preconditions`, extended path lists, heuristic computed) and
records the children in `possible_prev_nodes`.  Returns the children
together with the updated node. -/
def get_child_nodes (n : Node) (actions : List Action)
    (start_worldstate : WorldState) : Except PyExc (List Node × Node) :=
  if !n.possible_prev_nodes.isEmpty then .error .assertionError
  else do
    let children ← actions.foldlM
      (fun acc a => do
        let nodes_path_list := n.parent_nodes_path_list ++ [n]
        let actions_path_list := n.parent_actions_path_list ++ [a]
        let worldstatecopy := a.apply_preconditions n.worldstate start_worldstate
        let child : Node := .mk worldstatecopy (some a) [] nodes_path_list
          actions_path_list none
        let child ← child.calc_heuristic_distance_for_node start_worldstate
        pure (acc ++ [child]))
      ([] : List Node)
    .ok (children, n.setPossiblePrev children)

end Node

/-- Stable insertion of a node into a list sorted by `total_cost()`: the new
element goes after all strictly cheaper elements and before equal-cost ones
that came later in the original list. -/
def insertByCost (x : Node) : List Node → List Node
  | [] => [x]
  | y :: ys =>
    if y.total_cost < x.total_cost then y :: insertByCost x ys
    else x :: y :: ys

/-- `sorted(child_nodes, key=lambda node: node.total_cost())`: Python's
`sorted` is a stable sort keyed on `total_cost()`; any stable sort has the
same observable result, so this insertion sort models it exactly. -/
def sortByCost : List Node → List Node
  | [] => []
  | x :: xs => insertByCost x (sortByCost xs)

namespace Planner

/-- `Planner._filter_matching_actions(node_worldstate, actions)`: keep the
actions whose `has_satisfying_effects` judges them able to reduce one of the
node's unsatisfied conditions relative to the start state. -/
def filter_matching_actions (start_worldstate node_worldstate : WorldState)
    (actions : List Action) : List Action :=
  let unsat := node_worldstate.get_unsatisfied_conditions start_worldstate
  actions.filter fun a =>
    a.has_satisfying_effects node_worldstate start_worldstate unsat

/-- The body of `Planner.plan()`'s `while` loop.  `fuel` stands for
`501 - loopcount`: the Python loop increments `loopcount` and breaks once it
exceeds 500, before popping; that break is the `(_ :: _, 0)` case.  Each
iteration pops the leftmost node, returns it if the start worldstate matches
it, and otherwise expands it and re-sorts the whole collection. -/
def planLoop (start_worldstate : WorldState) (checked_actions : List Action) :
    List Node → Nat → Except PyExc (Option Node)
  | [], _ => .ok none
  | _ :: _, 0 => .ok none
  | current_node :: rest, fuel + 1 =>
    if start_worldstate.matches' current_node.worldstate then
      .ok (some current_node)
    else do
      let helpful_actions := filter_matching_actions start_worldstate
        current_node.worldstate checked_actions
      let (new_child_nodes, _) ← current_node.get_child_nodes helpful_actions
        start_worldstate
      planLoop start_worldstate checked_actions
        (sortByCost (rest ++ new_child_nodes)) fuel

/-- `Planner.plan(start_worldstate, goal)`: filter the catalog by
`check_freeform_context()` (Python collects the survivors into a set; the
embedding keeps the catalog's list order, a deterministic refinement of set
iteration), build the goal node from the goal's preconditions applied to an
empty worldstate, compute its heuristic, and run the bounded best-first
loop. -/
def plan (actions : List Action) (start_worldstate : WorldState) (goal : Goal) :
    Except PyExc (Option Node) := do
  let checked_actions := actions.filter fun a => a.check_freeform_context
  let goal_worldstate := goal.apply_preconditions ⟨[]⟩
  let goal_node : Node := .mk goal_worldstate none [] [] [] none
  let goal_node ← goal_node.calc_heuristic_distance_for_node start_worldstate
  planLoop start_worldstate checked_actions [goal_node] 500

end Planner

namespace PlanExecutor

/-- `PlanExecutor.execute(start_node)`, instrumented: along with the boolean
the Python method returns, the embedding reports the `id`s of the actions
whose `run()` was invoked, in execution order, so that theorems can speak
about which actions ran.  `fuel` only bounds the recursion depth (Python
recurses on the parent node directly; on chains produced by the planner the
depth equals the parent-chain length, so `execute` below supplies a
sufficient amount); exhausting it models Python's `RecursionError` on a
malformed cyclic chain and is never reached on well-formed chains. -/
def executeFuel : Nat → Node → Except PyExc (Bool × List Nat)
  | fuel, start_node =>
    if start_node.parent_nodes_path_list.length ≠
        start_node.parent_actions_path_list.length then .error .assertionError
    else
      match start_node.action with
      | none => .ok (true, [])
      | some action =>
        match start_node.parent_node with
        | none => .error .indexError
        | some next_node =>
          if action.is_valid start_node.worldstate then
            if action.check_freeform_context then
              let next_node := next_node.setWorldstate
                (action.run next_node.worldstate)
              match fuel with
              | 0 => .error .assertionError
              | fuel + 1 => do
                let (r, ran) ← executeFuel fuel next_node
                .ok (r, action.id :: ran)
            else .ok (false, [])
          else .ok (false, [])

/-- `PlanExecutor.execute(start_node)` with enough fuel for the node's own
parent chain (exactly the recursion depth Python performs on the chains the
planner returns). -/
def execute (start_node : Node) : Except PyExc (Bool × List Nat) :=
  executeFuel start_node.parent_nodes_path_list.length start_node

end PlanExecutor

namespace PlanExecutor

/-- Modelled from the spec: section 4.3's executor protocol as the spec
words it -- "re-validate the current action's preconditions against the
*current live* worldstate (not the state recorded at plan time)".  The live
worldstate the spec says each step consults is made an explicit argument; it
is advanced by each action's `run` alongside the next node's worldstate.
Used to compare the spec's wording with the code's `execute`. -/
def executeSpecFuel : Nat → WorldState → Node → Except PyExc (Bool × List Nat)
  | fuel, live, start_node =>
    if start_node.parent_nodes_path_list.length ≠
        start_node.parent_actions_path_list.length then .error .assertionError
    else
      match start_node.action with
      | none => .ok (true, [])
      | some action =>
        match start_node.parent_node with
        | none => .error .indexError
        | some next_node =>
          if action.is_valid live then
            if action.check_freeform_context then
              let next_node := next_node.setWorldstate
                (action.run next_node.worldstate)
              let live := action.run live
              match fuel with
              | 0 => .error .assertionError
              | fuel + 1 => do
                let (r, ran) ← executeSpecFuel fuel live next_node
                .ok (r, action.id :: ran)
            else .ok (false, [])
          else .ok (false, [])

/-- Modelled from the spec: the spec-worded executor (section 4.3), started
with the fuel matching the node's own chain length. -/
def executeSpec (live : WorldState) (start_node : Node) :
    Except PyExc (Bool × List Nat) :=
  executeSpecFuel start_node.parent_nodes_path_list.length live start_node

end PlanExecutor

/-! ### Concrete fixtures used by witnesses and counterexamples -/

/-- A one-condition worldstate with condition `0` holding the number 1. -/
def exWsOne : WorldState := ⟨[(0, .num 1)]⟩

/-- A one-condition worldstate with condition `0` holding the number 0. -/
def exWsZero : WorldState := ⟨[(0, .num 0)]⟩

/-- An action valid exactly in worldstates where condition `0` is 1. -/
def exActA : Action where
  id := 7
  cost := 1
  apply_preconditions := fun ws _ => ws
  is_valid := fun ws => ws.get_condition_value 0 == some (.num 1)
  has_satisfying_effects := fun _ _ _ => false
  check_freeform_context := true
  run := fun ws => ws

/-- A goal node (action unset, empty path lists). -/
def exGoalNode : Node := .mk exWsOne none [] [] [] (some 0)

/-- A one-step plan node: its recorded worldstate satisfies `exActA`. -/
def exStepNode : Node := .mk exWsOne (some exActA) [] [exGoalNode] [exActA] (some 0)

/-- A one-step plan node whose recorded worldstate violates `exActA`. -/
def exBadStepNode : Node := .mk exWsZero (some exActA) [] [exGoalNode] [exActA] (some 0)

/-- A freshly created, unexpanded node with no heuristic computed. -/
def exFreshNode : Node := .mk exWsOne none [] [] [] none

/-- The child `exFreshNode.get_child_nodes [exActA] exWsOne` builds. -/
def exChildNode : Node :=
  .mk exWsOne (some exActA) [] [exFreshNode] [exActA] (some (Frac.ofNat 0))

/-- `exFreshNode` after a first expansion that recorded one child. -/
def exExpandedNode : Node := .mk exWsOne none [exChildNode] [] [] none

/-! ### Helper lemmas on node setters and `Except` -/

namespace Node

@[simp] theorem setHeuristic_heuristic (n : Node) (x : Frac) :
    (n.setHeuristic x).heuristic_distance = some x := by cases n; rfl

@[simp] theorem setPossiblePrev_possible_prev (n : Node) (p : List Node) :
    (n.setPossiblePrev p).possible_prev_nodes = p := by cases n; rfl

end Node

theorem except_bind_ok {α β : Type} {e : Except PyExc α} {f : α → Except PyExc β}
    {b : β} (h : (e >>= f) = .ok b) : ∃ a, e = .ok a ∧ f a = .ok b := by
  cases e with
  | error e => simp [Bind.bind, Except.bind] at h
  | ok a => exact ⟨a, rfl, by simpa [Bind.bind, Except.bind] using h⟩

/-- A successful `get_child_nodes` returns the input node with exactly the
returned children recorded in `possible_prev_nodes`. -/
theorem get_child_nodes_ok_shape {n n' : Node} {cs : List Node}
    {acts : List Action} {s : WorldState}
    (h : n.get_child_nodes acts s = .ok (cs, n')) :
    n' = n.setPossiblePrev cs := by
  rw [Node.get_child_nodes] at h
  split at h
  · simp at h
  · obtain ⟨children, hf, h2⟩ := except_bind_ok h
    injection h2 with h1
    injection h1 with h2 h3
    exact h3.symm ▸ (h2 ▸ rfl)

/-- A successful heuristic computation always leaves the heuristic set. -/
theorem calc_heuristic_ok_isSome {n n' : Node} {s : WorldState}
    (h : n.calc_heuristic_distance_for_node s = .ok n') :
    n'.heuristic_distance.isSome := by
  rw [Node.calc_heuristic_distance_for_node] at h
  split at h
  · simp at h
  · split at h
    · injection h with h1
      rw [← h1]
      simp
    · split at h
      · simp at h
      · obtain ⟨total, hf, h2⟩ := except_bind_ok h
        injection h2 with h1
        rw [← h1]
        simp

/-! ### Claim C8 -/

/-- C8: if at a step of `PlanExecutor.execute()` the action's precondition
validation (`is_valid`, consulting the step node's worldstate) or its
freeform context check fails, that step returns failure (`False`) having run
no action at all (the instrumented run list is empty), regardless of the
available recursion depth -- so the failing step neither invokes `run()` nor
advances to any later step, and no partial-success continuation occurs. -/
theorem C8_failed_validation_aborts_without_running
    (n next : Node) (a : Action)
    (hlen : n.parent_nodes_path_list.length = n.parent_actions_path_list.length)
    (ha : n.action = some a)
    (hnext : n.parent_node = some next)
    (hfail : a.is_valid n.worldstate = false ∨ a.check_freeform_context = false) :
    (∀ fuel, PlanExecutor.executeFuel fuel n = .ok (false, [])) ∧
    PlanExecutor.execute n = .ok (false, []) := by
  have key : ∀ f, PlanExecutor.executeFuel f n = .ok (false, []) := by
    intro f
    rw [PlanExecutor.executeFuel.eq_def]
    simp only [hlen, ne_eq, not_true_eq_false, if_false, ha, hnext]
    rcases hfail with h | h
    · simp [h]
    · cases hv : a.is_valid n.worldstate
      · simp
      · simp [h]
  exact ⟨key, key _⟩

/-- C8 witness: a concrete step node whose action's preconditions fail in
the node's worldstate; the executor returns `False` without running it. -/
theorem C8_witness :
    exActA.is_valid exBadStepNode.worldstate = false ∧
    PlanExecutor.execute exBadStepNode = .ok (false, []) :=
  ⟨by decide,
    (C8_failed_validation_aborts_without_running exBadStepNode exGoalNode exActA
      rfl rfl rfl (Or.inl (by decide))).2⟩

/-! ### Claim C3 (corrected) -/

/-- C3 counterexample: the claim says `execute` re-validates preconditions
against the current live worldstate, "not the state recorded in the node at
plan time".  In the code, `current_worldstate = start_node.worldstate` is
exactly the state recorded in the node: with a live worldstate `exWsZero`
(drifted since plan time) in which the action's preconditions fail, the code
still runs the action and succeeds, whereas the spec-worded executor
(validating the live state) aborts without running it. -/
theorem C3_counterexample_validates_recorded_not_live :
    exActA.is_valid exWsZero = false ∧
    exWsZero ≠ exStepNode.worldstate ∧
    PlanExecutor.execute exStepNode = .ok (true, [7]) ∧
    PlanExecutor.executeSpec exWsZero exStepNode = .ok (false, []) := by
  refine ⟨by decide, by decide, by decide, by decide⟩

/-- C3 amended: at every step, `execute` re-validates the action's
preconditions via `is_valid` against the worldstate recorded in the current
node (as possibly updated by earlier actions' `run()` calls), not against an
independently tracked live worldstate, and re-checks the action's freeform
context, before running the action: the step's result is entirely
determined by `is_valid` on the node's recorded worldstate and
`check_freeform_context`, and only when both pass is `run()` invoked (on the
next node's worldstate) and execution advanced. -/
theorem C3_execute_revalidates_recorded_worldstate (n next : Node) (a : Action)
    (hlen : n.parent_nodes_path_list.length = n.parent_actions_path_list.length)
    (ha : n.action = some a)
    (hnext : n.parent_node = some next) :
    PlanExecutor.execute n =
      if a.is_valid n.worldstate then
        if a.check_freeform_context then
          (PlanExecutor.executeFuel (n.parent_nodes_path_list.length - 1)
            (next.setWorldstate (a.run next.worldstate))).map
            (fun rn => (rn.1, a.id :: rn.2))
        else .ok (false, [])
      else .ok (false, []) := by
  have hne : n.parent_nodes_path_list ≠ [] := by
    intro h
    rw [Node.parent_node, h] at hnext
    simp at hnext
  obtain ⟨k, hk⟩ : ∃ k, n.parent_nodes_path_list.length = k + 1 :=
    Nat.exists_eq_succ_of_ne_zero (fun h0 => hne (List.eq_nil_of_length_eq_zero h0))
  have hk2 : n.parent_actions_path_list.length = k + 1 := hlen ▸ hk
  rw [PlanExecutor.execute, PlanExecutor.executeFuel.eq_def]
  simp only [hlen, ne_eq, not_true_eq_false, if_false, ha, hnext, hk, hk2,
    Nat.add_sub_cancel]
  split
  · split
    · cases hrec : PlanExecutor.executeFuel k
        (next.setWorldstate (a.run next.worldstate)) with
      | error e => simp [hrec, Except.map, Bind.bind, Except.bind]
      | ok rn => cases rn; simp [hrec, Except.map, Bind.bind, Except.bind]
    · rfl
  · rfl

/-- C3 witness: the amended step equation applied to a concrete one-step
plan whose recorded worldstate passes validation. -/
theorem C3_witness :
    exActA.is_valid exStepNode.worldstate = true ∧
    PlanExecutor.execute exStepNode = .ok (true, [7]) := by
  refine ⟨by decide, ?_⟩
  rw [C3_execute_revalidates_recorded_worldstate exStepNode exGoalNode exActA
    rfl rfl rfl]
  decide

/-! ### Claim C5 (corrected) -/

/-- C5 counterexample: the claim says a second `get_child_nodes()` on the
same node must always fail.  The assertion only checks that
`possible_prev_nodes` is empty; a first call with an empty action list
records no children, so a second call succeeds instead of failing (the first
conjunct shows the first call returns the node unchanged, hence the second
call is the very same call). -/
theorem C5_counterexample_second_expansion_succeeds :
    exFreshNode.get_child_nodes [] exWsOne = .ok ([], exFreshNode) ∧
    exFreshNode.get_child_nodes [] exWsOne ≠ .error .assertionError := by
  have h1 : exFreshNode.get_child_nodes [] exWsOne = .ok ([], exFreshNode) := rfl
  refine ⟨h1, ?_⟩
  rw [h1]
  simp

/-- C5 amended: a second `get_child_nodes()` invocation fails with the
contract-violation assertion provided the first invocation recorded at least
one child (equivalently, was given at least one action); recomputing the
heuristic of a node whose heuristic has been computed always fails with the
assertion. -/
theorem C5_double_expansion_and_double_heuristic_fail :
    (∀ (n n' : Node) (cs : List Node) (acts acts2 : List Action)
        (s s2 : WorldState),
      n.get_child_nodes acts s = .ok (cs, n') → cs ≠ [] →
      n'.get_child_nodes acts2 s2 = .error .assertionError) ∧
    (∀ (n n' : Node) (s s2 : WorldState),
      n.calc_heuristic_distance_for_node s = .ok n' →
      n'.calc_heuristic_distance_for_node s2 = .error .assertionError) := by
  constructor
  · intro n n' cs acts acts2 s s2 h hcs
    have hshape := get_child_nodes_ok_shape h
    rw [Node.get_child_nodes, hshape]
    cases cs with
    | nil => exact absurd rfl hcs
    | cons c cs' => simp
  · intro n n' s s2 h
    have hsome := calc_heuristic_ok_isSome h
    rw [Node.calc_heuristic_distance_for_node]
    simp [hsome]

/-- C5 witness: the amended theorem applied to a first expansion that built
one child, and to a first heuristic computation. -/
theorem C5_witness :
    exExpandedNode.get_child_nodes [] exWsOne = .error .assertionError ∧
    (Node.mk exWsOne none [] [] [] (some (Frac.ofNat 0))).calc_heuristic_distance_for_node
      exWsOne = .error .assertionError := by
  constructor
  · exact C5_double_expansion_and_double_heuristic_fail.1 exFreshNode
      exExpandedNode [exChildNode] [exActA] [] exWsOne exWsOne rfl (by simp)
  · exact C5_double_expansion_and_double_heuristic_fail.2 exFreshNode
      (Node.mk exWsOne none [] [] [] (some (Frac.ofNat 0))) exWsOne exWsOne rfl

/-! ### Claim C6 -/

/-- C6: for every non-goal node, a successful heuristic computation sets
`heuristic_distance` to a value that is at most the number of conditions on
which the node's worldstate and the start worldstate disagree (the summed
per-condition contributions are clamped with `min`). -/
theorem C6_heuristic_clamped_to_unsat_count (n n' : Node) (s : WorldState)
    (a : Action)
    (ha : n.action = some a)
    (h : n.calc_heuristic_distance_for_node s = .ok n') :
    ∃ hd, n'.heuristic_distance = some hd ∧
      hd ≤ Frac.ofNat (n.worldstate.get_unsatisfied_conditions s).length := by
  rw [Node.calc_heuristic_distance_for_node] at h
  split at h
  · simp at h
  · split at h
    · next heq => rw [ha] at heq; exact absurd heq (by simp)
    · split at h
      · simp at h
      · obtain ⟨total, hf, h2⟩ := except_bind_ok h
        injection h2 with h1
        refine ⟨(Frac.ofNat (n.worldstate.get_unsatisfied_conditions s).length).fmin
          total, ?_, ?_⟩
        · rw [← h1]; simp
        · exact Frac.fmin_le_left _ _

/-- A non-goal node with one disagreeing condition, heuristic uncomputed. -/
def exC6Node : Node := .mk exWsOne (some exActA) [] [exGoalNode] [exActA] none

/-- C6 witness: the clamp theorem applied to a concrete node whose single
disagreeing condition contributes relative distance 1. -/
theorem C6_witness :
    exC6Node.calc_heuristic_distance_for_node exWsZero =
      .ok (exC6Node.setHeuristic (Frac.ofNat 1)) ∧
    ∃ hd, (exC6Node.setHeuristic (Frac.ofNat 1)).heuristic_distance = some hd ∧
      hd ≤ Frac.ofNat
        (exC6Node.worldstate.get_unsatisfied_conditions exWsZero).length :=
  ⟨rfl, C6_heuristic_clamped_to_unsat_count exC6Node _ exWsZero exActA rfl rfl⟩

/-! ### Claim C10 -/

/-- C10: for a non-goal node with an unsatisfied condition whose node, start
and goal values are all numeric, a goal value equal to the start value
(zero total distance) makes the heuristic computation fail with the
unhandled `ZeroDivisionError` instead of substituting the default
distance 1; only non-numeric values -- a `TypeError` from the subtraction
(conjuncts two and three) or from the remaining-distance subtraction
(conjunct four, which applies even when the total distance is zero because
Python computes `distance_remaining` before dividing) -- fall back to the
default distance 1. -/
theorem C10_zero_total_distance_unhandled :
    (∀ (n g : Node) (s : WorldState) (c : Nat) (a : Action) (gv nv sv : Int),
      n.action = some a →
      n.parent_nodes_path_list.head? = some g →
      n.heuristic_distance = none →
      n.worldstate.get_unsatisfied_conditions s = [c] →
      g.worldstate.get_condition_value c = some (.num gv) →
      n.worldstate.get_condition_value c = some (.num nv) →
      s.get_condition_value c = some (.num sv) →
      gv = sv →
      n.calc_heuristic_distance_for_node s = .error .zeroDivisionError) ∧
    (∀ (gws nws sws : WorldState) (c : Nat) (st : String) (nv sv : Value),
      gws.get_condition_value c = some (.sym st) →
      nws.get_condition_value c = some nv →
      sws.get_condition_value c = some sv →
      conditionDistance gws nws sws c = .ok 1) ∧
    (∀ (gws nws sws : WorldState) (c : Nat) (gv : Int) (nv : Value)
        (st : String),
      gws.get_condition_value c = some (.num gv) →
      nws.get_condition_value c = some nv →
      sws.get_condition_value c = some (.sym st) →
      conditionDistance gws nws sws c = .ok 1) ∧
    (∀ (gws nws sws : WorldState) (c : Nat) (gv sv : Int) (st : String),
      gws.get_condition_value c = some (.num gv) →
      nws.get_condition_value c = some (.sym st) →
      sws.get_condition_value c = some (.num sv) →
      conditionDistance gws nws sws c = .ok 1) := by
  refine ⟨?_, ?_, ?_, ?_⟩
  · intro n g s c a gv nv sv ha hhead hheur hunsat hg hn hs heq
    rw [Node.calc_heuristic_distance_for_node]
    rw [hheur]
    simp only [Option.isSome_none, Bool.false_eq_true, if_false, ha, hhead,
      hunsat]
    have hcond : conditionDistance g.worldstate n.worldstate s c =
        .error .zeroDivisionError := by
      rw [conditionDistance, hg, hn, hs, heq]
      simp [Int.sub_self]
    simp [List.foldlM, hcond, Bind.bind, Except.bind]
  · intro gws nws sws c st nv sv hg hn hs
    rw [conditionDistance, hg, hn, hs]
  · intro gws nws sws c gv nv st hg hn hs
    rw [conditionDistance, hg, hn, hs]
  · intro gws nws sws c gv sv st hg hn hs
    rw [conditionDistance, hg, hn, hs]

/-- A goal node whose worldstate already holds the start value 0. -/
def exC10GoalNode : Node := .mk exWsZero none [] [] [] (some 0)

/-- A non-goal node disagreeing with the start on condition 0 while the goal
value equals the start value (total distance zero). -/
def exC10Node : Node := .mk exWsOne (some exActA) [] [exC10GoalNode] [exActA] none

/-- A worldstate holding a non-numeric value for condition 0. -/
def exWsSym : WorldState := ⟨[(0, .sym "open")]⟩

/-- C10 witness: the zero-total-distance failure and the three non-numeric
fallbacks, at concrete inputs. -/
theorem C10_witness :
    exC10Node.calc_heuristic_distance_for_node exWsZero =
      .error .zeroDivisionError ∧
    conditionDistance exWsSym exWsOne exWsZero 0 = .ok 1 ∧
    conditionDistance exWsZero exWsOne exWsSym 0 = .ok 1 ∧
    conditionDistance exWsZero exWsSym exWsZero 0 = .ok 1 :=
  ⟨C10_zero_total_distance_unhandled.1 exC10Node exC10GoalNode exWsZero 0 exActA
      0 1 0 rfl rfl rfl (by decide) rfl rfl rfl rfl,
    C10_zero_total_distance_unhandled.2.1 exWsSym exWsOne exWsZero 0 "open"
      (.num 1) (.num 0) rfl rfl rfl,
    C10_zero_total_distance_unhandled.2.2.1 exWsZero exWsOne exWsSym 0 0
      (.num 1) "open" rfl rfl rfl,
    C10_zero_total_distance_unhandled.2.2.2 exWsZero exWsSym exWsZero 0 0 0
      "open" rfl rfl rfl⟩

/-! ### Chain invariant and claim C9 -/

instance : Zero Frac := ⟨Frac.ofNat 0⟩

theorem Frac.val_list_sum (l : List Frac) :
    Frac.val l.sum = (l.map Frac.val).sum := by
  induction l with
  | nil => simpa using Frac.val_zero
  | cons x xs ih => simp [List.sum_cons, Frac.val_add, ih]

namespace Node

@[simp] theorem cost_mk_none (ws pp ps as h) :
    (Node.mk ws none pp ps as h).cost = 0 := rfl

@[simp] theorem cost_mk_some (ws a pp ps as h) :
    (Node.mk ws (some a) pp ps as h).cost = a.cost := rfl

end Node

/-- The shape of every node chain the planner builds: path lists grow by
appending the parent node and the child's action; the root is the goal node
(unset action, empty path lists). -/
inductive ChainWF : Node → Prop where
  | root (ws : WorldState) (pp : List Node) (h : Option Frac) :
      ChainWF (.mk ws none pp [] [] h)
  | step (p : Node) (a : Action) (ws : WorldState) (pp : List Node)
      (h : Option Frac) : ChainWF p →
      ChainWF (.mk ws (some a) pp (p.parent_nodes_path_list ++ [p])
        (p.parent_actions_path_list ++ [a]) h)

/-- A successful heuristic computation returns the node with just the
heuristic attached. -/
theorem calc_heuristic_ok_shape {n n' : Node} {s : WorldState}
    (h : n.calc_heuristic_distance_for_node s = .ok n') :
    ∃ x, n' = n.setHeuristic x := by
  rw [Node.calc_heuristic_distance_for_node] at h
  split at h
  · simp at h
  · split at h
    · exact ⟨_, by injection h with h1; exact h1.symm⟩
    · split at h
      · simp at h
      · obtain ⟨total, hf, h2⟩ := except_bind_ok h
        exact ⟨_, by injection h2 with h1; exact h1.symm⟩

/-- Every child a successful expansion returns has the planner's child
shape: regressed worldstate, the generating action, extended path lists and
a computed heuristic. -/
theorem get_child_nodes_mem {n n' : Node} {cs : List Node}
    {acts : List Action} {s : WorldState}
    (h : n.get_child_nodes acts s = .ok (cs, n')) :
    ∀ c ∈ cs, ∃ a hd, a ∈ acts ∧
      c = Node.mk (a.apply_preconditions n.worldstate s) (some a) []
        (n.parent_nodes_path_list ++ [n]) (n.parent_actions_path_list ++ [a])
        (some hd) := by
  rw [Node.get_child_nodes] at h
  split at h
  · simp at h
  · obtain ⟨children, hf, h2⟩ := except_bind_ok h
    injection h2 with h1
    injection h1 with hcs hn'
    subst hcs
    suffices key : ∀ (l : List Action) (acc cs : List Node),
        (l.foldlM (fun acc a => do
          let nodes_path_list := n.parent_nodes_path_list ++ [n]
          let actions_path_list := n.parent_actions_path_list ++ [a]
          let worldstatecopy := a.apply_preconditions n.worldstate s
          let child : Node := .mk worldstatecopy (some a) [] nodes_path_list
            actions_path_list none
          let child ← child.calc_heuristic_distance_for_node s
          pure (acc ++ [child])) acc) = .ok cs →
        ∀ c ∈ cs, c ∈ acc ∨ ∃ a hd, a ∈ l ∧
          c = Node.mk (a.apply_preconditions n.worldstate s) (some a) []
            (n.parent_nodes_path_list ++ [n])
            (n.parent_actions_path_list ++ [a]) (some hd) by
      intro c hc
      rcases key acts [] children hf c hc with hacc | hex
      · simp at hacc
      · exact hex
    intro l
    induction l with
    | nil =>
      intro acc cs h0 c hc
      simp only [List.foldlM_nil] at h0
      injection h0 with h1
      subst h1
      exact Or.inl hc
    | cons a rest ih =>
      intro acc cs h0 c hc
      simp only [List.foldlM_cons] at h0
      obtain ⟨acc', hstep, hrest⟩ := except_bind_ok h0
      obtain ⟨child, hcalc, hpure⟩ := except_bind_ok hstep
      obtain ⟨x, hx⟩ := calc_heuristic_ok_shape hcalc
      injection hpure with hacc'
      subst hacc'
      rcases ih _ _ hrest c hc with hmem | ⟨a', hd, ha', hc'⟩
      · rcases List.mem_append.mp hmem with h1 | h1
        · exact Or.inl h1
        · refine Or.inr ⟨a, x, List.mem_cons_self a rest, ?_⟩
          simp only [List.mem_singleton] at h1
          rw [h1, hx]
          rfl
      · exact Or.inr ⟨a', hd, List.mem_cons_of_mem a ha', hc'⟩

theorem insertByCost_perm (x : Node) (l : List Node) :
    (insertByCost x l).Perm (x :: l) := by
  induction l with
  | nil => exact List.Perm.refl _
  | cons y ys ih =>
    rw [insertByCost]
    split
    · exact (ih.cons y).trans (List.Perm.swap x y ys)
    · exact List.Perm.refl _

theorem sortByCost_perm (l : List Node) : (sortByCost l).Perm l := by
  induction l with
  | nil => exact List.Perm.refl _
  | cons x xs ih => exact (insertByCost_perm x (sortByCost xs)).trans (ih.cons x)

theorem sortByCost_mem {m : Node} {l : List Node} :
    m ∈ sortByCost l ↔ m ∈ l :=
  (sortByCost_perm l).mem_iff

/-- Every node the planning loop returns satisfies the chain invariant,
provided every node in the open collection does. -/
theorem planLoop_ok_some_chainWF (s : WorldState) (checked : List Action) :
    ∀ (fuel : Nat) (dq : List Node) (n : Node),
    (∀ m ∈ dq, ChainWF m) →
    Planner.planLoop s checked dq fuel = .ok (some n) → ChainWF n := by
  intro fuel
  induction fuel with
  | zero =>
    intro dq n hwf h
    cases dq with
    | nil => simp [Planner.planLoop] at h
    | cons cur rest => simp [Planner.planLoop] at h
  | succ fuel ih =>
    intro dq n hwf h
    cases dq with
    | nil => simp [Planner.planLoop] at h
    | cons cur rest =>
      rw [Planner.planLoop] at h
      split at h
      · injection h with h1
        injection h1 with h2
        exact h2 ▸ hwf cur (List.mem_cons_self cur rest)
      · obtain ⟨⟨cs, n''⟩, hexp, hrec⟩ := except_bind_ok h
        refine ih _ n ?_ hrec
        intro m hm
        rcases List.mem_append.mp (sortByCost_mem.mp hm) with h1 | h1
        · exact hwf m (List.mem_cons_of_mem cur h1)
        · obtain ⟨a, hd, ha, hm'⟩ := get_child_nodes_mem hexp m h1
          rw [hm']
          exact ChainWF.step cur a _ _ _ (hwf cur (List.mem_cons_self cur rest))

/-- The node `plan()` returns satisfies the chain invariant. -/
theorem plan_ok_some_chainWF {acts : List Action} {s : WorldState} {g : Goal}
    {n : Node} (h : Planner.plan acts s g = .ok (some n)) : ChainWF n := by
  rw [Planner.plan] at h
  obtain ⟨gn, hcalc, hloop⟩ := except_bind_ok h
  obtain ⟨x, hx⟩ := calc_heuristic_ok_shape hcalc
  refine planLoop_ok_some_chainWF s _ 500 [gn] n ?_ hloop
  intro m hm
  simp only [List.mem_singleton] at hm
  subst hm
  rw [hx]
  exact ChainWF.root _ _ _

/-- C9: on every well-formed chain node (and every node `plan()` returns is
one, by the second conjunct), `path_cost()` -- own `cost()` plus the sum of
`cost()` over the parent chain, where a goal node costs 0 and any other node
costs its action's cost -- equals (as a number) the sum of the action costs
recorded along the full forward chain, i.e. over
`parent_actions_path_list`, which ends with the node's own action. -/
theorem C9_path_cost_sums_action_costs :
    (∀ n : Node, ChainWF n →
      Frac.eqv n.path_cost (n.parent_actions_path_list.map Action.cost).sum) ∧
    (∀ (acts : List Action) (s : WorldState) (g : Goal) (n : Node),
      Planner.plan acts s g = .ok (some n) → ChainWF n) := by
  constructor
  · intro n hn
    rw [Frac.eqv_iff_val]
    induction hn with
    | root ws pp h =>
      simp only [Node.path_cost, Node.cost_mk_none,
        Node.parent_nodes_path_list_mk, Node.parent_actions_path_list_mk,
        List.map_nil, List.sum_nil, Frac.val_add]
      have h0 : Frac.val 0 = 0 := Frac.val_ofNat 0
      rw [h0]
      simp
    | step p a ws pp h hp ih =>
      rw [Node.path_cost] at ih ⊢
      rw [Frac.val_add, Frac.val_list_sum] at ih ⊢
      simp only [Node.cost_mk_some, Node.parent_nodes_path_list_mk,
        Node.parent_actions_path_list_mk, List.map_append, List.sum_append,
        List.map_cons, List.map_nil, List.sum_cons, List.sum_nil]
      rw [Frac.val_list_sum] at ih ⊢
      simp only [List.map_append, List.sum_append, List.map_cons, List.map_nil,
        List.sum_cons, List.sum_nil]
      linarith
  · intro acts s g n h
    exact plan_ok_some_chainWF h

/-- A goal that wants nothing: its precondition state is empty, so any start
worldstate matches immediately and `plan()` returns the goal node itself. -/
def exTrivialGoal : Goal := ⟨fun ws => ws⟩

/-- C9 witness: the cost identity applied to a concrete two-node chain, and
the chain invariant obtained from a concrete (trivial) planner run. -/
theorem C9_witness :
    Frac.eqv exStepNode.path_cost
      ((exStepNode.parent_actions_path_list.map Action.cost).sum) ∧
    ChainWF (Node.mk ⟨[]⟩ none [] [] [] (some (Frac.ofNat 0))) :=
  ⟨C9_path_cost_sums_action_costs.1 exStepNode
      (ChainWF.step exGoalNode exActA exWsOne [] (some 0)
        (ChainWF.root exWsOne [] (some 0))),
    C9_path_cost_sums_action_costs.2 [] exWsZero exTrivialGoal
      (Node.mk ⟨[]⟩ none [] [] [] (some (Frac.ofNat 0))) rfl⟩

end RGOAP

namespace RGOAP

/-- How a `plan()` run ended: a matching node was found, the open collection
drained, or the iteration ceiling was hit. -/
inductive PlanEnd : Type where
  | found (n : Node) : PlanEnd
  | drained : PlanEnd
  | ceiling : PlanEnd

/-- Instrumentation record of a `plan()` run: the tagged open collection at
the moment of each pop (the popped node is its head; the `Nat` tag on each
node is its creation sequence number, i.e. its insertion order into the open
collection), every node created by expansion in creation order, and how the
run ended. -/
structure PlanLog : Type where
  pops : List (List (Nat × Node))
  created : List Node
  ended : PlanEnd

/-- `insertByCost` on creation-tagged nodes (the tag does not influence the
comparison, exactly as in the code). -/
def insertByCostT (x : Nat × Node) : List (Nat × Node) → List (Nat × Node)
  | [] => [x]
  | y :: ys =>
    if y.2.total_cost < x.2.total_cost then y :: insertByCostT x ys
    else x :: y :: ys

/-- `sortByCost` on creation-tagged nodes. -/
def sortByCostT : List (Nat × Node) → List (Nat × Node)
  | [] => []
  | x :: xs => insertByCostT x (sortByCostT xs)

namespace Planner

/-- `planLoop` instrumented with creation tags and a log; erasing the
instrumentation gives back `planLoop` (`planLoopInstr_erase`). -/
def planLoopInstr (start_worldstate : WorldState) (checked_actions : List Action) :
    List (Nat × Node) → Nat → Nat → List (List (Nat × Node)) → List Node →
    Except PyExc PlanLog
  | [], _, _, pops, created => .ok ⟨pops, created, .drained⟩
  | _ :: _, 0, _, pops, created => .ok ⟨pops, created, .ceiling⟩
  | x :: rest, fuel + 1, ctr, pops, created =>
    if start_worldstate.matches' x.2.worldstate then
      .ok ⟨pops ++ [x :: rest], created, .found x.2⟩
    else do
      let helpful_actions := filter_matching_actions start_worldstate
        x.2.worldstate checked_actions
      let (new_child_nodes, _) ← x.2.get_child_nodes helpful_actions
        start_worldstate
      planLoopInstr start_worldstate checked_actions
        (sortByCostT (rest ++ List.enumFrom ctr new_child_nodes)) fuel
        (ctr + new_child_nodes.length) (pops ++ [x :: rest])
        (created ++ new_child_nodes)

/-- `plan` instrumented with a log (the goal node gets tag 0). -/
def planInstr (actions : List Action) (start_worldstate : WorldState)
    (goal : Goal) : Except PyExc PlanLog := do
  let checked_actions := actions.filter fun a => a.check_freeform_context
  let goal_worldstate := goal.apply_preconditions ⟨[]⟩
  let goal_node : Node := .mk goal_worldstate none [] [] [] none
  let goal_node ← goal_node.calc_heuristic_distance_for_node start_worldstate
  planLoopInstr start_worldstate checked_actions [(0, goal_node)] 500 1 [] []

end Planner

/-- The plan result a finished log corresponds to. -/
def PlanLog.result (log : PlanLog) : Option Node :=
  match log.ended with
  | .found n => some n
  | _ => none

/-- The nodes popped during the run, in pop order. -/
def PlanLog.popped (log : PlanLog) : List Node :=
  log.pops.filterMap fun dq => dq.head?.map Prod.snd

theorem insertByCostT_erase (x : Nat × Node) (l : List (Nat × Node)) :
    (insertByCostT x l).map Prod.snd = insertByCost x.2 (l.map Prod.snd) := by
  induction l with
  | nil => rfl
  | cons y ys ih =>
    rw [insertByCostT]
    split
    · next h => simp only [List.map_cons, ih, insertByCost, if_pos h]
    · next h => simp only [List.map_cons, insertByCost, if_neg h]

theorem sortByCostT_erase (l : List (Nat × Node)) :
    (sortByCostT l).map Prod.snd = sortByCost (l.map Prod.snd) := by
  induction l with
  | nil => rfl
  | cons x xs ih => rw [sortByCostT, List.map_cons, sortByCost, insertByCostT_erase, ih]

/-- Erasing the instrumentation from `planLoopInstr` gives `planLoop`. -/
theorem planLoopInstr_erase (s : WorldState) (checked : List Action) :
    ∀ (fuel : Nat) (dq : List (Nat × Node)) (ctr : Nat)
      (pops : List (List (Nat × Node))) (created : List Node),
    Planner.planLoop s checked (dq.map Prod.snd) fuel =
      (Planner.planLoopInstr s checked dq fuel ctr pops created).map
        PlanLog.result := by
  intro fuel
  induction fuel with
  | zero =>
    intro dq ctr pops created
    cases dq with
    | nil => rfl
    | cons x rest => rfl
  | succ fuel ih =>
    intro dq ctr pops created
    cases dq with
    | nil => rfl
    | cons x rest =>
      rw [Planner.planLoopInstr]
      simp only [List.map_cons]
      rw [Planner.planLoop]
      split
      · rfl
      · cases hexp : x.2.get_child_nodes
          (Planner.filter_matching_actions s x.2.worldstate checked) s with
        | error e => simp [hexp, Bind.bind, Except.bind, Except.map]
        | ok pr =>
          cases pr with
          | mk cs n' =>
            simp only [hexp, Bind.bind, Except.bind]
            have := ih (sortByCostT (rest ++ List.enumFrom ctr cs)) (ctr + cs.length)
              (pops ++ [x :: rest]) (created ++ cs)
            rw [sortByCostT_erase, List.map_append, List.enumFrom_map_snd] at this
            exact this

/-- Erasing the instrumentation from `planInstr` gives `plan`. -/
theorem planInstr_erase (acts : List Action) (s : WorldState) (g : Goal) :
    Planner.plan acts s g = (Planner.planInstr acts s g).map PlanLog.result := by
  rw [Planner.plan, Planner.planInstr]
  cases hcalc : (Node.mk (g.apply_preconditions ⟨[]⟩) none [] [] [] none).calc_heuristic_distance_for_node s with
  | error e => simp [hcalc, Bind.bind, Except.bind, Except.map]
  | ok gn =>
    simp only [hcalc, Bind.bind, Except.bind]
    have := planLoopInstr_erase s (acts.filter fun a => a.check_freeform_context)
      500 [(0, gn)] 1 [] []
    simpa using this

end RGOAP

namespace RGOAP

theorem Frac.le_iff_lt_or_eqv {a b : Frac} : a ≤ b ↔ a < b ∨ Frac.eqv a b :=
  Int.le_iff_lt_or_eq

theorem Frac.eqv_refl (a : Frac) : Frac.eqv a a := rfl

theorem Frac.le_of_eqv {a b : Frac} (h : Frac.eqv a b) : a ≤ b := le_of_eq h

theorem Frac.ge_of_eqv {a b : Frac} (h : Frac.eqv a b) : b ≤ a := le_of_eq h.symm

theorem Frac.eqv_of_le_le {a b : Frac} (h1 : a ≤ b) (h2 : b ≤ a) :
    Frac.eqv a b := Int.le_antisymm h1 h2

/-- The order in which a stable sort by `total_cost()` arranges
creation-tagged nodes: strictly cheaper first, ties by creation tag. -/
def lexLE (a b : Nat × Node) : Prop :=
  a.2.total_cost < b.2.total_cost ∨
    (Frac.eqv a.2.total_cost b.2.total_cost ∧ a.1 ≤ b.1)

theorem lexLE_trans {a b c : Nat × Node} (h1 : lexLE a b) (h2 : lexLE b c) :
    lexLE a c := by
  rcases h1 with h1 | ⟨h1, t1⟩ <;> rcases h2 with h2 | ⟨h2, t2⟩
  · exact Or.inl (Frac.lt_of_lt_of_le h1 (Frac.le_of_lt h2))
  · exact Or.inl (Frac.lt_of_lt_of_le h1 (Frac.le_of_eqv h2))
  · exact Or.inl (Frac.lt_of_le_of_lt (Frac.le_of_eqv h1) h2)
  · exact Or.inr ⟨Frac.eqv_of_le_le
      (Frac.le_trans (Frac.le_of_eqv h1) (Frac.le_of_eqv h2))
      (Frac.le_trans (Frac.ge_of_eqv h2) (Frac.ge_of_eqv h1)),
      Nat.le_trans t1 t2⟩

theorem lexLE_of_not_lt {a b : Nat × Node}
    (h : ¬ b.2.total_cost < a.2.total_cost)
    (ht : Frac.eqv a.2.total_cost b.2.total_cost → a.1 ≤ b.1) : lexLE a b := by
  rcases Frac.le_iff_lt_or_eqv.mp (Frac.not_lt.mp h) with h1 | h1
  · exact Or.inl h1
  · exact Or.inr ⟨h1, ht h1⟩

theorem insertByCostT_perm (x : Nat × Node) (l : List (Nat × Node)) :
    (insertByCostT x l).Perm (x :: l) := by
  induction l with
  | nil => exact List.Perm.refl _
  | cons y ys ih =>
    rw [insertByCostT]
    split
    · exact (ih.cons y).trans (List.Perm.swap x y ys)
    · exact List.Perm.refl _

theorem sortByCostT_perm (l : List (Nat × Node)) : (sortByCostT l).Perm l := by
  induction l with
  | nil => exact List.Perm.refl _
  | cons x xs ih => exact (insertByCostT_perm x (sortByCostT xs)).trans (ih.cons x)

theorem insertByCostT_pairwise {x : Nat × Node} {l : List (Nat × Node)}
    (hl : l.Pairwise lexLE)
    (hx : ∀ y ∈ l, Frac.eqv x.2.total_cost y.2.total_cost → x.1 ≤ y.1) :
    (insertByCostT x l).Pairwise lexLE := by
  induction l with
  | nil => simp [insertByCostT]
  | cons y ys ih =>
    rw [insertByCostT]
    rw [List.pairwise_cons] at hl
    split
    · next hlt =>
      refine List.Pairwise.cons ?_ (ih hl.2 fun z hz he =>
        hx z (List.mem_cons_of_mem y hz) he)
      intro z hz
      rcases List.mem_cons.mp ((insertByCostT_perm x ys).mem_iff.mp hz)
        with h1 | h1
      · subst h1
        exact Or.inl hlt
      · exact hl.1 z h1
    · next hnlt =>
      refine List.Pairwise.cons ?_ (List.pairwise_cons.mpr hl)
      intro z hz
      have hxy : lexLE x y :=
        lexLE_of_not_lt hnlt (hx y (List.mem_cons_self y ys))
      rcases List.mem_cons.mp hz with h1 | h1
      · exact h1 ▸ hxy
      · exact lexLE_trans hxy (hl.1 z h1)

theorem sortByCostT_pairwise {l : List (Nat × Node)}
    (h : l.Pairwise fun a b =>
      Frac.eqv a.2.total_cost b.2.total_cost → a.1 ≤ b.1) :
    (sortByCostT l).Pairwise lexLE := by
  induction l with
  | nil => simp [sortByCostT]
  | cons x xs ih =>
    rw [List.pairwise_cons] at h
    rw [sortByCostT]
    exact insertByCostT_pairwise (ih h.2)
      fun y hy => h.1 y ((sortByCostT_perm xs).mem_iff.mp hy)

/-- Pairwise `lexLE` (which the sorted collection satisfies) entails the
tag-compatibility property the next sort needs. -/
theorem pairwise_lex_tagOrder {l : List (Nat × Node)} (h : l.Pairwise lexLE) :
    l.Pairwise fun a b =>
      Frac.eqv a.2.total_cost b.2.total_cost → a.1 ≤ b.1 := by
  refine h.imp ?_
  intro a b hab he
  rcases hab with h1 | ⟨h1, t1⟩
  · exact absurd h1 (by rw [Frac.not_lt]; exact Frac.ge_of_eqv he)
  · exact t1

/-- Invariant: in every deque `planLoopInstr` logs, the collection is in
stable-sort order (`lexLE`-pairwise) and all tags are below the counter. -/
theorem planLoopInstr_pops_pairwise (s : WorldState) (checked : List Action) :
    ∀ (fuel : Nat) (dq : List (Nat × Node)) (ctr : Nat)
      (pops : List (List (Nat × Node))) (created : List Node) (log : PlanLog),
    dq.Pairwise lexLE → (∀ p ∈ dq, p.1 < ctr) →
    (∀ d ∈ pops, d.Pairwise lexLE) →
    Planner.planLoopInstr s checked dq fuel ctr pops created = .ok log →
    ∀ d ∈ log.pops, d.Pairwise lexLE := by
  intro fuel
  induction fuel with
  | zero =>
    intro dq ctr pops created log hdq htag hpops h
    cases dq with
    | nil =>
      rw [Planner.planLoopInstr] at h
      injection h with h1
      rw [← h1]
      exact hpops
    | cons x rest =>
      rw [Planner.planLoopInstr] at h
      injection h with h1
      rw [← h1]
      exact hpops
  | succ fuel ih =>
    intro dq ctr pops created log hdq htag hpops h
    cases dq with
    | nil =>
      rw [Planner.planLoopInstr] at h
      injection h with h1
      rw [← h1]
      exact hpops
    | cons x rest =>
      rw [Planner.planLoopInstr] at h
      have hpops' : ∀ d ∈ pops ++ [x :: rest], d.Pairwise lexLE := by
        intro d hd
        rcases List.mem_append.mp hd with h1 | h1
        · exact hpops d h1
        · simp only [List.mem_singleton] at h1
          exact h1 ▸ hdq
      split at h
      · injection h with h1; rw [← h1]; exact hpops'
      · obtain ⟨⟨cs, n'⟩, hexp, hrec⟩ := except_bind_ok h
        have hdq' : (sortByCostT (rest ++ List.enumFrom ctr cs)).Pairwise lexLE := by
          apply sortByCostT_pairwise
          apply List.pairwise_append.mpr
          refine ⟨pairwise_lex_tagOrder (List.pairwise_cons.mp hdq).2, ?_, ?_⟩
          · have henum : ∀ (m : Nat) (l : List Node), (List.enumFrom m l).Pairwise
                fun a b : Nat × Node => a.1 ≤ b.1 := by
              intro m l
              induction l generalizing m with
              | nil => simp
              | cons c cls ihl =>
                rw [List.enumFrom]
                refine List.Pairwise.cons ?_ (ihl (m + 1))
                intro q hq
                exact Nat.le_of_lt (Nat.lt_of_lt_of_le (Nat.lt_succ_self m)
                  (List.le_fst_of_mem_enumFrom hq))
            exact (henum ctr cs).imp
              fun {a b} hab (_ : Frac.eqv a.2.total_cost b.2.total_cost) => hab
          · intro p hp q hq
            intro he
            have h1 : p.1 < ctr := htag p (List.mem_cons_of_mem x hp)
            have h2 : ctr ≤ q.1 := List.le_fst_of_mem_enumFrom hq
            exact Nat.le_of_lt (Nat.lt_of_lt_of_le h1 h2)
        have htag' : ∀ p ∈ sortByCostT (rest ++ List.enumFrom ctr cs),
            p.1 < ctr + cs.length := by
          intro p hp
          rcases List.mem_append.mp ((sortByCostT_perm _).mem_iff.mp hp) with h1 | h1
          · exact Nat.lt_of_lt_of_le (htag p (List.mem_cons_of_mem x h1))
              (Nat.le_add_right _ _)
          · have hb := List.fst_lt_add_of_mem_enumFrom h1
            exact hb
        exact ih _ _ _ _ _ hdq' htag' hpops' hrec

end RGOAP

namespace RGOAP

/-- C2: in every iteration of `Planner.plan()`'s main loop, the node popped
from the open collection (the head of the logged deque) has minimum
`total_cost()` among all open nodes, and among nodes of equal `total_cost()`
(value-level equality, Python's `==` on numbers) the one with the smallest
creation tag -- i.e. the earliest-inserted, since `planLoopInstr` tags nodes
in creation order and appends them in that order -- is popped first; this
holds across every re-sort because the sort is stable. -/
theorem C2_pop_min_cost_earliest_inserted (acts : List Action) (s : WorldState) (g : Goal)
    (log : PlanLog) (h : Planner.planInstr acts s g = .ok log)
    (dq : List (Nat × Node)) (hdq : dq ∈ log.pops)
    (x : Nat × Node) (hx : dq.head? = some x)
    (y : Nat × Node) (hy : y ∈ dq) :
    x.2.total_cost < y.2.total_cost ∨
      (Frac.eqv x.2.total_cost y.2.total_cost ∧ x.1 ≤ y.1) := by
  have hpair : dq.Pairwise lexLE := by
    rw [Planner.planInstr] at h
    obtain ⟨gn, hcalc, hloop⟩ := except_bind_ok h
    exact planLoopInstr_pops_pairwise s _ 500 [(0, gn)] 1 [] [] log
      (by simp) (by simp) (by simp) hloop dq hdq
  cases dq with
  | nil => simp at hx
  | cons a t =>
    injection hx with hx1
    subst hx1
    rcases List.mem_cons.mp hy with h1 | h1
    · subst h1
      exact Or.inr ⟨Frac.eqv_refl _, Nat.le_refl _⟩
    · exact (List.pairwise_cons.mp hpair).1 y h1

theorem planLoopInstr_nonfound_no_match (s : WorldState) (checked : List Action) :
    ∀ (fuel : Nat) (dq : List (Nat × Node)) (ctr : Nat)
      (pops : List (List (Nat × Node))) (created : List Node) (log : PlanLog),
    Planner.planLoopInstr s checked dq fuel ctr pops created = .ok log →
    (log.ended = .drained ∨ log.ended = .ceiling) →
    (∀ n ∈ pops.filterMap (fun d => d.head?.map Prod.snd),
      s.matches' n.worldstate = false) →
    ∀ n ∈ log.popped, s.matches' n.worldstate = false := by
  intro fuel
  induction fuel with
  | zero =>
    intro dq ctr pops created log h hend hnm
    cases dq with
    | nil =>
      rw [Planner.planLoopInstr] at h
      injection h with h1
      rw [← h1]
      exact hnm
    | cons x rest =>
      rw [Planner.planLoopInstr] at h
      injection h with h1
      rw [← h1]
      exact hnm
  | succ fuel ih =>
    intro dq ctr pops created log h hend hnm
    cases dq with
    | nil =>
      rw [Planner.planLoopInstr] at h
      injection h with h1
      rw [← h1]
      exact hnm
    | cons x rest =>
      rw [Planner.planLoopInstr] at h
      split at h
      · injection h with h1
        rw [← h1] at hend
        simp [PlanLog.ended] at hend
      · next hmatch =>
        obtain ⟨⟨cs, n'⟩, hexp, hrec⟩ := except_bind_ok h
        refine ih _ _ _ _ _ hrec hend ?_
        intro n hn
        rw [List.filterMap_append] at hn
        rcases List.mem_append.mp hn with h1 | h1
        · exact hnm n h1
        · have hn2 : n = x.2 := by simpa using h1
          rw [hn2]
          exact Bool.eq_false_iff.mpr hmatch

/-- C4: `plan()` returns the no-plan result (`.ok none`, a normal return
value, not an exception) exactly when the open collection drains or the
500-iteration ceiling is exceeded without the start worldstate matching any
popped node.  (`plan` itself is a total function of its fuel-bounded loop,
so termination on every input is by construction.) -/
theorem C4_plan_none_iff_drain_or_ceiling_without_match (acts : List Action) (s : WorldState) (g : Goal) :
    Planner.plan acts s g = .ok none ↔
      ∃ log, Planner.planInstr acts s g = .ok log ∧
        (log.ended = .drained ∨ log.ended = .ceiling) ∧
        ∀ n ∈ log.popped, s.matches' n.worldstate = false := by
  rw [planInstr_erase]
  constructor
  · intro h
    cases hinstr : Planner.planInstr acts s g with
    | error e => rw [hinstr] at h; simp [Except.map] at h
    | ok log =>
      rw [hinstr] at h
      simp only [Except.map] at h
      injection h with hres
      have hend : log.ended = .drained ∨ log.ended = .ceiling := by
        cases hl : log.ended with
        | found n => rw [PlanLog.result, hl] at hres; simp at hres
        | drained => exact Or.inl rfl
        | ceiling => exact Or.inr rfl
      refine ⟨log, rfl, hend, ?_⟩
      rw [Planner.planInstr] at hinstr
      obtain ⟨gn, hcalc, hloop⟩ := except_bind_ok hinstr
      exact planLoopInstr_nonfound_no_match s _ 500 [(0, gn)] 1 [] [] log
        hloop hend (by simp)
  · rintro ⟨log, hinstr, hend, hnm⟩
    rw [hinstr]
    simp only [Except.map]
    rcases hend with h1 | h1 <;> rw [PlanLog.result, h1]

theorem planLoopInstr_created_freeform (s : WorldState) (acts : List Action) :
    ∀ (fuel : Nat) (dq : List (Nat × Node)) (ctr : Nat)
      (pops : List (List (Nat × Node))) (created : List Node) (log : PlanLog),
    Planner.planLoopInstr s (acts.filter fun a => a.check_freeform_context)
      dq fuel ctr pops created = .ok log →
    (∀ c ∈ created, ∀ a, c.action = some a → a.check_freeform_context = true) →
    ∀ c ∈ log.created, ∀ a, c.action = some a →
      a.check_freeform_context = true := by
  intro fuel
  induction fuel with
  | zero =>
    intro dq ctr pops created log h hcr
    cases dq with
    | nil =>
      rw [Planner.planLoopInstr] at h
      injection h with h1
      rw [← h1]
      exact hcr
    | cons x rest =>
      rw [Planner.planLoopInstr] at h
      injection h with h1
      rw [← h1]
      exact hcr
  | succ fuel ih =>
    intro dq ctr pops created log h hcr
    cases dq with
    | nil =>
      rw [Planner.planLoopInstr] at h
      injection h with h1
      rw [← h1]
      exact hcr
    | cons x rest =>
      rw [Planner.planLoopInstr] at h
      split at h
      · injection h with h1
        rw [← h1]
        exact hcr
      · obtain ⟨⟨cs, n'⟩, hexp, hrec⟩ := except_bind_ok h
        refine ih _ _ _ _ _ hrec ?_
        intro c hc a ha
        rcases List.mem_append.mp hc with h1 | h1
        · exact hcr c h1 a ha
        · obtain ⟨a', hd, ha', hc'⟩ := get_child_nodes_mem hexp c h1
          have ha'' : a' ∈ acts.filter fun b => b.check_freeform_context := by
            rw [Planner.filter_matching_actions] at ha'
            exact List.mem_of_mem_filter ha'
          have hff : a'.check_freeform_context = true :=
            (List.mem_filter.mp ha'').2
          rw [hc'] at ha
          simp only [Node.action_mk] at ha
          injection ha with ha1
          rw [← ha1]
          exact hff

/-- C7: in every planning run, an action whose `check_freeform_context()` is
false at filter time never appears as the action of any node created during
expansion: every created node's action passes the freeform check (the
catalog is filtered once up front and expansion only draws from the filtered
set). -/
theorem C7_freeform_false_actions_never_expanded (acts : List Action) (s : WorldState) (g : Goal)
    (log : PlanLog) (h : Planner.planInstr acts s g = .ok log) :
    ∀ c ∈ log.created, ∀ a, c.action = some a →
      a.check_freeform_context = true := by
  rw [Planner.planInstr] at h
  obtain ⟨gn, hcalc, hloop⟩ := except_bind_ok h
  exact planLoopInstr_created_freeform s acts 500 [(0, gn)] 1 [] [] log hloop
    (by simp)

end RGOAP

namespace RGOAP

def exActG1 : Action where
  id := 11
  cost := 1
  apply_preconditions := fun ws _ => ws.set 0 (.num 0)
  is_valid := fun _ => true
  has_satisfying_effects := fun _ _ unsat => unsat.contains 0
  check_freeform_context := true
  run := fun ws => ws

def exActG2 : Action := { exActG1 with id := 12, cost := 2 }

def exActBadFF : Action := { exActG1 with id := 13, check_freeform_context := false }

def exPlanGoal : Goal := ⟨fun ws => ws.set 0 (.num 1)⟩

def exPlanGoalNode : Node := .mk ⟨[(0, .num 1)]⟩ none [] [] [] (some (Frac.ofNat 1))

def exC2Child1 : Node :=
  .mk ⟨[(0, .num 0), (0, .num 1)]⟩ (some exActG1) [] [exPlanGoalNode] [exActG1]
    (some (Frac.ofNat 0))

def exC2Child2 : Node :=
  .mk ⟨[(0, .num 0), (0, .num 1)]⟩ (some exActG2) [] [exPlanGoalNode] [exActG2]
    (some (Frac.ofNat 0))

def exC2Log : PlanLog :=
  ⟨[[(0, exPlanGoalNode)], [(1, exC2Child1), (2, exC2Child2)]],
    [exC2Child1, exC2Child2], .found exC2Child1⟩

example : Planner.planInstr [exActG1, exActG2] exWsZero exPlanGoal = .ok exC2Log := rfl

def exC7Log : PlanLog :=
  ⟨[[(0, exPlanGoalNode)], [(1, exC2Child1)]], [exC2Child1], .found exC2Child1⟩

example : Planner.planInstr [exActBadFF, exActG1] exWsZero exPlanGoal = .ok exC7Log := rfl


/-- C2 witness: a concrete two-action run; at its second pop the deque holds
two tagged nodes and the popped head is the strictly cheaper one. -/
theorem C2_witness :
    exC2Child1.total_cost < exC2Child2.total_cost ∨
      (Frac.eqv exC2Child1.total_cost exC2Child2.total_cost ∧ (1 : Nat) ≤ 2) :=
  C2_pop_min_cost_earliest_inserted [exActG1, exActG2] exWsZero exPlanGoal
    exC2Log rfl [(1, exC2Child1), (2, exC2Child2)]
    (List.mem_cons_of_mem _ (List.mem_cons_self _ _)) (1, exC2Child1) rfl
    (2, exC2Child2) (List.mem_cons_of_mem _ (List.mem_cons_self _ _))

/-- C7 witness: a run whose catalog contains a freeform-false action that
would satisfy the goal; the single node created carries the freeform-true
action. -/
theorem C7_witness :
    exActBadFF.check_freeform_context = false ∧
    exActG1.check_freeform_context = true :=
  ⟨rfl, C7_freeform_false_actions_never_expanded [exActBadFF, exActG1]
    exWsZero exPlanGoal exC7Log rfl exC2Child1 (List.mem_cons_self _ _)
    exActG1 rfl⟩

end RGOAP

namespace RGOAP

/-- The nodes the planner's expansion can reach for a given catalog, start
worldstate and goal: the goal node (after its heuristic is computed), and
every child a successful expansion of a reachable node produces, using
exactly the planner's action filtering. -/
inductive Reachable (actions : List Action) (start_worldstate : WorldState)
    (goal : Goal) : Node → Prop where
  | root (gn : Node) :
      (Node.mk (goal.apply_preconditions ⟨[]⟩) none [] [] []
        none).calc_heuristic_distance_for_node start_worldstate = .ok gn →
      Reachable actions start_worldstate goal gn
  | child (n : Node) (cs : List Node) (n' c : Node) :
      Reachable actions start_worldstate goal n →
      n.get_child_nodes
        (Planner.filter_matching_actions start_worldstate n.worldstate
          (actions.filter fun a => a.check_freeform_context))
        start_worldstate = .ok (cs, n') →
      c ∈ cs →
      Reachable actions start_worldstate goal c

/-- The nodes of a node's effect chain, goal node first, the node last. -/
def Node.chainNodes (n : Node) : List Node :=
  n.parent_nodes_path_list ++ [n]

/-- The length of a node's effect chain. -/
def Node.chainLength (n : Node) : Nat := n.chainNodes.length

/-- Two worldstates are equivalent when each matches the other (they agree
on every condition either cares about). -/
def wsEquiv (w w' : WorldState) : Prop :=
  w.matches' w' = true ∧ w'.matches' w = true

/-- An effect chain is acyclic when no two of its worldstates are
equivalent. -/
def Node.chainAcyclic (n : Node) : Prop :=
  (n.chainNodes.map Node.worldstate).Pairwise fun w w' => ¬ wsEquiv w w'

/-- Walking forward from a node along `parent_node()` links, does the walk
reach a node for which `is_goal()` is true?  (Fuel is the chain length, the
number of steps the walk can need.) -/
def forwardWalkReachesGoal : Nat → Node → Bool
  | 0, n => n.is_goal
  | fuel + 1, n =>
    if n.is_goal then true
    else
      match n.parent_node with
      | none => false
      | some p => forwardWalkReachesGoal fuel p

/-- On every well-formed chain the forward walk reaches a goal node. -/
theorem chainWF_reachesGoal (n : Node) (hn : ChainWF n) :
    forwardWalkReachesGoal n.parent_nodes_path_list.length n = true := by
  induction hn with
  | root ws pp h => rfl
  | step p a ws pp h hp ih =>
    rw [forwardWalkReachesGoal.eq_def]
    simp only [Node.parent_nodes_path_list_mk, List.length_append,
      List.length_singleton]
    rw [Node.is_goal]
    simp only [Node.action_mk, Option.isNone_some, Bool.false_eq_true,
      if_false]
    rw [Node.parent_node]
    simp only [Node.parent_nodes_path_list_mk, List.getLast?_concat]
    exact ih

end RGOAP

namespace RGOAP

/-- Reachable nodes satisfy the chain invariant. -/
theorem reachable_chainWF {acts : List Action} {s : WorldState} {g : Goal}
    {n : Node} (h : Reachable acts s g n) : ChainWF n := by
  induction h with
  | root gn hgn =>
    obtain ⟨x, hx⟩ := calc_heuristic_ok_shape hgn
    rw [hx]
    exact ChainWF.root _ _ _
  | child n cs n' c hr hexp hc ih =>
    obtain ⟨a, hd, ha, hc'⟩ := get_child_nodes_mem hexp c hc
    rw [hc']
    exact ChainWF.step n a _ _ _ ih

/-- The children of an expansion carry exactly the given actions, in
order. -/
theorem get_child_nodes_actions {n n' : Node} {cs : List Node}
    {acts : List Action} {s : WorldState}
    (h : n.get_child_nodes acts s = .ok (cs, n')) :
    cs.map Node.action = acts.map some := by
  rw [Node.get_child_nodes] at h
  split at h
  · simp at h
  · obtain ⟨children, hf, h2⟩ := except_bind_ok h
    injection h2 with h1
    injection h1 with hcs hn'
    subst hcs
    suffices key : ∀ (l : List Action) (acc cs : List Node),
        (l.foldlM (fun acc a => do
          let nodes_path_list := n.parent_nodes_path_list ++ [n]
          let actions_path_list := n.parent_actions_path_list ++ [a]
          let worldstatecopy := a.apply_preconditions n.worldstate s
          let child : Node := .mk worldstatecopy (some a) [] nodes_path_list
            actions_path_list none
          let child ← child.calc_heuristic_distance_for_node s
          pure (acc ++ [child])) acc) = .ok cs →
        cs.map Node.action = acc.map Node.action ++ l.map some by
      have := key acts [] children hf
      simpa using this
    intro l
    induction l with
    | nil =>
      intro acc cs h0
      simp only [List.foldlM_nil] at h0
      injection h0 with h1
      subst h1
      simp
    | cons a rest ih =>
      intro acc cs h0
      simp only [List.foldlM_cons] at h0
      obtain ⟨acc', hstep, hrest⟩ := except_bind_ok h0
      obtain ⟨child, hcalc, hpure⟩ := except_bind_ok hstep
      obtain ⟨x, hx⟩ := calc_heuristic_ok_shape hcalc
      injection hpure with hacc'
      subst hacc'
      rw [ih _ _ hrest]
      simp [hx]
      rfl

/-- An expansion given distinct actions produces distinct children. -/
theorem get_child_nodes_nodup {n n' : Node} {cs : List Node}
    {acts : List Action} {s : WorldState}
    (h : n.get_child_nodes acts s = .ok (cs, n')) (hacts : acts.Nodup) :
    cs.Nodup := by
  have hmap := get_child_nodes_actions h
  have h1 : (cs.map Node.action).Nodup := by
    rw [hmap]
    exact hacts.map fun a b hab => Option.some.inj hab
  exact h1.of_map

end RGOAP

namespace RGOAP

/-- One expansion step: `b` is among the children the planner's expansion of
`a` produces. -/
def expandRel (acts : List Action) (s : WorldState) (a b : Node) : Prop :=
  ∃ cs n', a.get_child_nodes
    (Planner.filter_matching_actions s a.worldstate
      (acts.filter fun x => x.check_freeform_context)) s = .ok (cs, n') ∧
    b ∈ cs

/-- Every reachable node's chain consists of reachable nodes, consecutive
chain nodes are in the expansion relation, and the chain starts at the goal
node. -/
theorem reachable_chain_facts {acts : List Action} {s : WorldState} {g : Goal}
    {n : Node} (h : Reachable acts s g n) :
    (∀ e ∈ n.chainNodes, Reachable acts s g e) ∧
    List.Chain' (expandRel acts s) n.chainNodes ∧
    ∀ gn, (Node.mk (g.apply_preconditions ⟨[]⟩) none [] [] []
        none).calc_heuristic_distance_for_node s = .ok gn →
      ∃ rest, n.chainNodes = gn :: rest := by
  induction h with
  | root gn' hgn' =>
    obtain ⟨x, hx⟩ := calc_heuristic_ok_shape hgn'
    have hchain : gn'.chainNodes = [gn'] := by
      rw [Node.chainNodes, hx]
      rfl
    refine ⟨?_, ?_, ?_⟩
    · intro e he
      rw [hchain] at he
      simp only [List.mem_singleton] at he
      exact he ▸ Reachable.root gn' hgn'
    · rw [hchain]
      exact List.chain'_singleton _
    · intro gn hcalc
      rw [hgn'] at hcalc
      injection hcalc with h1
      exact ⟨[], by rw [hchain, h1]⟩
  | child n cs n' c hr hexp hc ih =>
    obtain ⟨a, hd, ha, hc'⟩ := get_child_nodes_mem hexp c hc
    have hchain : c.chainNodes = n.chainNodes ++ [c] := by
      rw [Node.chainNodes, Node.chainNodes, hc']
      simp
    refine ⟨?_, ?_, ?_⟩
    · intro e he
      rw [hchain] at he
      rcases List.mem_append.mp he with h1 | h1
      · exact ih.1 e h1
      · simp only [List.mem_singleton] at h1
        exact h1 ▸ Reachable.child n cs n' c hr hexp hc
    · rw [hchain]
      apply List.Chain'.append ih.2.1 (List.chain'_singleton c)
      intro x hx y hy
      have hxn : x = n := by
        have : n.chainNodes.getLast? = some n := by
          rw [Node.chainNodes]
          exact List.getLast?_concat _
        rw [this] at hx
        injection hx with h1
        exact h1.symm
      have hyc : y = c := by
        simp only [List.head?_cons] at hy
        injection hy with h1
        exact h1.symm
      rw [hxn, hyc]
      exact ⟨cs, n', hexp, hc⟩
    · intro gn hcalc
      obtain ⟨rest, hrest⟩ := ih.2.2 gn hcalc
      exact ⟨rest ++ [c], by rw [hchain, hrest]; rfl⟩

/-- Any reachable node determines a successfully computed goal node. -/
theorem reachable_root_exists {acts : List Action} {s : WorldState} {g : Goal}
    {n : Node} (h : Reachable acts s g n) :
    ∃ gn, (Node.mk (g.apply_preconditions ⟨[]⟩) none [] [] []
      none).calc_heuristic_distance_for_node s = .ok gn := by
  induction h with
  | root gn' hgn' => exact ⟨gn', hgn'⟩
  | child n cs n' c hr hexp hc ih => exact ih

end RGOAP

namespace RGOAP

/-- Core completeness argument: if every reachable node lies in a duplicate-
free list `L`, open nodes are reachable, pairwise distinct and provenanced,
every reachable node is covered by the frontier, enough fuel remains, and a
reachable matching node exists, then the loop returns a matching node. -/
theorem planLoop_complete (acts : List Action) (s : WorldState) (g : Goal)
    (L : List Node) (m gn : Node)
    (hgn : (Node.mk (g.apply_preconditions ⟨[]⟩) none [] [] []
      none).calc_heuristic_distance_for_node s = .ok gn)
    (hLall : ∀ n, Reachable acts s g n → n ∈ L)
    (hNA : acts.Nodup)
    (hExp : ∀ n, Reachable acts s g n → s.matches' n.worldstate = false →
      ∃ cs n', n.get_child_nodes
        (Planner.filter_matching_actions s n.worldstate
          (acts.filter fun a => a.check_freeform_context)) s = .ok (cs, n'))
    (hm : Reachable acts s g m) (hmatch : s.matches' m.worldstate = true) :
    ∀ (fuel : Nat) (D P : List Node),
    (∀ e ∈ P ++ D, Reachable acts s g e) →
    (P ++ D).Nodup →
    (∀ e ∈ P ++ D, e = gn ∨ ∃ p ∈ P, expandRel acts s p e) →
    (∀ p ∈ P, s.matches' p.worldstate = false) →
    (∀ r, Reachable acts s g r → r ∈ P ∨
      ∃ d t, d ∈ D ∧ (d :: t) <:+ r.chainNodes) →
    L.length ≤ fuel + P.length →
    ∃ nf, Planner.planLoop s (acts.filter fun a => a.check_freeform_context)
        D fuel = .ok (some nf) ∧
      s.matches' nf.worldstate = true ∧ Reachable acts s g nf := by
  intro fuel
  induction fuel with
  | zero =>
    intro D P hI1 hI2 hI3 hI4 hI5 hI6
    exfalso
    rcases hI5 m hm with hmp | ⟨d, t, hd, hsuf⟩
    · rw [hI4 m hmp] at hmatch
      exact Bool.false_ne_true hmatch
    · cases hD : D with
      | nil => rw [hD] at hd; exact (List.not_mem_nil d) hd
      | cons d0 Dr =>
        have hsub : (P ++ D) ⊆ L := fun e he => hLall e (hI1 e he)
        have hlen : (P ++ D).length ≤ L.length := (hI2.subperm hsub).length_le
        rw [List.length_append, hD] at hlen
        have : L.length ≤ P.length := by simpa using hI6
        have hpos : 0 < (d0 :: Dr).length := by simp
        omega
  | succ fuel ih =>
    intro D P hI1 hI2 hI3 hI4 hI5 hI6
    cases D with
    | nil =>
      exfalso
      rcases hI5 m hm with hmp | ⟨d, t, hd, hsuf⟩
      · rw [hI4 m hmp] at hmatch
        exact Bool.false_ne_true hmatch
      · exact (List.not_mem_nil d) hd
    | cons d Dr =>
      have hdmem : d ∈ P ++ d :: Dr := List.mem_append_right _ (List.mem_cons_self _ _)
      have hdreach : Reachable acts s g d := hI1 d hdmem
      rw [Planner.planLoop]
      by_cases hdm : s.matches' d.worldstate = true
      · exact ⟨d, by rw [if_pos hdm], hdm, hdreach⟩
      · have hdm' : s.matches' d.worldstate = false := Bool.eq_false_iff.mpr hdm
        obtain ⟨cs, n', hexp⟩ := hExp d hdreach hdm'
        rw [if_neg hdm]
        simp only [hexp, Bind.bind, Except.bind]
        -- freshness of the new children
        have hdnotP : d ∉ P := by
          intro hP
          have := List.disjoint_of_nodup_append hI2
          exact this hP (List.mem_cons_self _ _)
        have hfresh : ∀ c ∈ cs, c ∉ P ++ d :: Dr := by
          intro c hc hcold
          rcases hI3 c hcold with hcg | ⟨p, hp, cs2, n2, hexp2, hc2⟩
          · obtain ⟨x, hx⟩ := calc_heuristic_ok_shape hgn
            obtain ⟨a, hd2, ha2, hshape⟩ := get_child_nodes_mem hexp c hc
            rw [hcg, hx] at hshape
            have h1 := congrArg Node.parent_nodes_path_list hshape
            simp only [Node.parent_nodes_path_list_mk] at h1
            have : ([] : List Node) = d.parent_nodes_path_list ++ [d] := by
              rw [← Node.parent_nodes_path_list_mk (g.apply_preconditions ⟨[]⟩)
                none [] [] [] none]
              exact h1
            simp at this
          · obtain ⟨a, hdx, hax, hshape⟩ := get_child_nodes_mem hexp c hc
            obtain ⟨a2, hdx2, hax2, hshape2⟩ := get_child_nodes_mem hexp2 c hc2
            have h1 := congrArg Node.parent_nodes_path_list hshape
            have h2 := congrArg Node.parent_nodes_path_list hshape2
            simp only [Node.parent_nodes_path_list_mk] at h1 h2
            have hlast : some d = some p := by
              rw [← List.getLast?_concat d.parent_nodes_path_list,
                ← List.getLast?_concat p.parent_nodes_path_list, ← h1, ← h2]
            injection hlast with hdp
            exact hdnotP (hdp ▸ hp)
        have hcsnodup : cs.Nodup := by
          refine get_child_nodes_nodup hexp ?_
          rw [Planner.filter_matching_actions]
          exact (hNA.filter _).filter _
        have holdnodup : (P ++ d :: Dr).Nodup := hI2
        have hnodupnew : ((P ++ [d]) ++ sortByCost (Dr ++ cs)).Nodup := by
          have hperm1 : ((P ++ [d]) ++ sortByCost (Dr ++ cs)).Perm
              ((P ++ [d]) ++ (Dr ++ cs)) :=
            List.Perm.append_left _ (sortByCost_perm _)
          have hperm2 : ((P ++ [d]) ++ (Dr ++ cs)).Perm ((P ++ d :: Dr) ++ cs) := by
            have he1 : (P ++ [d]) ++ (Dr ++ cs) = P ++ (d :: (Dr ++ cs)) := by
              rw [List.append_assoc]
              rfl
            have he2 : (P ++ d :: Dr) ++ cs = P ++ (d :: (Dr ++ cs)) := by
              rw [List.append_assoc]
              rfl
            rw [he1, he2]
          have : ((P ++ d :: Dr) ++ cs).Nodup := by
            rw [List.nodup_append]
            exact ⟨holdnodup, hcsnodup, fun e he hce => hfresh e hce he⟩
          exact ((hperm1.trans hperm2).nodup_iff).mpr this
        -- apply the induction hypothesis
        have hmemnew : ∀ e, e ∈ (P ++ [d]) ++ sortByCost (Dr ++ cs) ↔
            (e ∈ P ++ d :: Dr ∨ e ∈ cs) := by
          intro e
          constructor
          · intro he
            rcases List.mem_append.mp he with h1 | h1
            · rcases List.mem_append.mp h1 with h2 | h2
              · exact Or.inl (List.mem_append_left _ h2)
              · simp only [List.mem_singleton] at h2
                exact Or.inl (List.mem_append_right _ (h2 ▸ List.mem_cons_self _ _))
            · rcases List.mem_append.mp (sortByCost_mem.mp h1) with h2 | h2
              · exact Or.inl (List.mem_append_right _ (List.mem_cons_of_mem _ h2))
              · exact Or.inr h2
          · intro he
            rcases he with h1 | h1
            · rcases List.mem_append.mp h1 with h2 | h2
              · exact List.mem_append_left _ (List.mem_append_left _ h2)
              · rcases List.mem_cons.mp h2 with h3 | h3
                · exact List.mem_append_left _
                    (List.mem_append_right _ (by simp [h3]))
                · exact List.mem_append_right _
                    (sortByCost_mem.mpr (List.mem_append_left _ h3))
            · exact List.mem_append_right _
                (sortByCost_mem.mpr (List.mem_append_right _ h1))
        refine ih (sortByCost (Dr ++ cs)) (P ++ [d]) ?_ ?_ ?_ ?_ ?_ ?_
        · intro e he
          rcases (hmemnew e).mp he with h1 | h1
          · exact hI1 e h1
          · exact Reachable.child d cs n' e hdreach hexp h1
        · exact hnodupnew
        · intro e he
          rcases (hmemnew e).mp he with h1 | h1
          · rcases hI3 e h1 with h2 | ⟨p, hp, hrel⟩
            · exact Or.inl h2
            · exact Or.inr ⟨p, List.mem_append_left _ hp, hrel⟩
          · exact Or.inr ⟨d, List.mem_append_right _ (List.mem_singleton_self d),
              cs, n', hexp, h1⟩
        · intro p hp
          rcases List.mem_append.mp hp with h1 | h1
          · exact hI4 p h1
          · simp only [List.mem_singleton] at h1
            exact h1 ▸ hdm'
        · intro r hr
          rcases hI5 r hr with h1 | ⟨d1, t, hd1, hsuf⟩
          · exact Or.inl (List.mem_append_left _ h1)
          · rcases List.mem_cons.mp hd1 with h2 | h2
            · subst h2
              cases t with
              | nil =>
                have hlast : r.chainNodes.getLast? = some d1 := by
                  obtain ⟨pre, hpre⟩ := hsuf
                  rw [← hpre]
                  exact List.getLast?_concat _
                have hlast2 : r.chainNodes.getLast? = some r := by
                  rw [Node.chainNodes]
                  exact List.getLast?_concat _
                rw [hlast2] at hlast
                injection hlast with h3
                exact Or.inl (List.mem_append_right _ (by simp [h3]))
              | cons e t' =>
                have hchain : List.Chain' (expandRel acts s) r.chainNodes :=
                  (reachable_chain_facts hr).2.1
                have hchain2 : List.Chain' (expandRel acts s) (d1 :: e :: t') := by
                  obtain ⟨pre, hpre⟩ := hsuf
                  rw [← hpre] at hchain
                  exact hchain.right_of_append
                have hrel : expandRel acts s d1 e := by
                  rw [List.chain'_cons] at hchain2
                  exact hchain2.1
                obtain ⟨cs2, n2, hexp2, he2⟩ := hrel
                rw [hexp] at hexp2
                injection hexp2 with h3
                injection h3 with h4 h5
                subst h4
                refine Or.inr ⟨e, t', ?_, ?_⟩
                · exact sortByCost_mem.mpr (List.mem_append_right _ he2)
                · exact (List.suffix_cons d1 (e :: t')).trans hsuf
            · refine Or.inr ⟨d1, t, ?_, hsuf⟩
              exact sortByCost_mem.mpr (List.mem_append_left _ h2)
        · rw [List.length_append, List.length_singleton]
          omega

end RGOAP

namespace RGOAP

/-- C1 amended: for every solvable triple -- one with a reachable node the
start worldstate matches -- whose regression search space is exception-free
(every reachable non-matching node expands successfully) and contains fewer
nodes than the iteration ceiling of 500, and whose catalog is
duplicate-free (Python keeps it in a set), `Planner.plan()` returns a
non-`None` node the start worldstate matches, and walking forward from it
along `parent_node()` links reaches a node for which `is_goal()` is true. -/
theorem C1_plan_finds_within_small_search_space
    (acts : List Action) (s : WorldState) (g : Goal)
    (L : List Node) (m : Node)
    (hNA : acts.Nodup)
    (hLall : ∀ n, Reachable acts s g n → n ∈ L)
    (hLlen : L.length < 500)
    (hExp : ∀ n, Reachable acts s g n → s.matches' n.worldstate = false →
      ∃ cs n', n.get_child_nodes
        (Planner.filter_matching_actions s n.worldstate
          (acts.filter fun a => a.check_freeform_context)) s = .ok (cs, n'))
    (hm : Reachable acts s g m) (hmatch : s.matches' m.worldstate = true) :
    ∃ nf, Planner.plan acts s g = .ok (some nf) ∧
      s.matches' nf.worldstate = true ∧
      forwardWalkReachesGoal nf.parent_nodes_path_list.length nf = true := by
  obtain ⟨gn, hgn⟩ := reachable_root_exists hm
  rw [Planner.plan]
  simp only [hgn, Bind.bind, Except.bind]
  have key := planLoop_complete acts s g L m gn hgn hLall hNA hExp hm hmatch
    500 [gn] []
  have hI1 : ∀ e ∈ ([] : List Node) ++ [gn], Reachable acts s g e := by
    intro e he
    simp only [List.nil_append, List.mem_singleton] at he
    exact he ▸ Reachable.root gn hgn
  have hI2 : (([] : List Node) ++ [gn]).Nodup := by simp
  have hI3 : ∀ e ∈ ([] : List Node) ++ [gn], e = gn ∨
      ∃ p ∈ ([] : List Node), expandRel acts s p e := by
    intro e he
    simp only [List.nil_append, List.mem_singleton] at he
    exact Or.inl he
  have hI4 : ∀ p ∈ ([] : List Node), s.matches' p.worldstate = false := by
    intro p hp
    exact absurd hp (List.not_mem_nil p)
  have hI5 : ∀ r, Reachable acts s g r → r ∈ ([] : List Node) ∨
      ∃ d t, d ∈ [gn] ∧ (d :: t) <:+ r.chainNodes := by
    intro r hr
    obtain ⟨rest, hrest⟩ := (reachable_chain_facts hr).2.2 gn hgn
    exact Or.inr ⟨gn, rest, List.mem_singleton_self gn, by rw [hrest]⟩
  have hI6 : L.length ≤ 500 + ([] : List Node).length := by
    simp only [List.length_nil]
    omega
  obtain ⟨nf, hloop, hnf, hreach⟩ := key hI1 hI2 hI3 hI4 hI5 hI6
  exact ⟨nf, hloop, hnf,
    chainWF_reachesGoal nf (reachable_chainWF hreach)⟩

end RGOAP

namespace RGOAP

/-- The goal node of the trivial instance (empty catalog, trivial goal). -/
def exTrivGoalNode : Node := .mk ⟨[]⟩ none [] [] [] (some (Frac.ofNat 0))

/-- C1 witness: the amended theorem applied to the trivial instance (empty
catalog, trivial goal), whose search space is the goal node alone. -/
theorem C1_witness :
    ∃ nf, Planner.plan [] exWsZero exTrivialGoal = .ok (some nf) ∧
      exWsZero.matches' nf.worldstate = true ∧
      forwardWalkReachesGoal nf.parent_nodes_path_list.length nf = true := by
  have hLall : ∀ n, Reachable [] exWsZero exTrivialGoal n →
      n ∈ [exTrivGoalNode] := by
    intro n h
    induction h with
    | root gn' hgn' =>
      have hcalc : (Node.mk (exTrivialGoal.apply_preconditions ⟨[]⟩) none [] [] []
          none).calc_heuristic_distance_for_node exWsZero =
          .ok exTrivGoalNode := rfl
      rw [hcalc] at hgn'
      injection hgn' with h1
      simp [h1]
    | child n cs n' c hr hexp hc ih =>
      simp only [List.mem_singleton] at ih
      subst ih
      have hcomp : exTrivGoalNode.get_child_nodes
          (Planner.filter_matching_actions exWsZero exTrivGoalNode.worldstate
            (List.filter (fun a => a.check_freeform_context) [])) exWsZero =
          .ok ([], exTrivGoalNode) := rfl
      rw [hcomp] at hexp
      injection hexp with h1
      injection h1 with h2 h3
      subst h2
      exact absurd hc (List.not_mem_nil c)
  refine C1_plan_finds_within_small_search_space [] exWsZero exTrivialGoal [exTrivGoalNode]
    exTrivGoalNode (by simp) hLall (by simp) ?_ (Reachable.root _ rfl) (by decide)
  intro n hn hfalse
  have := hLall n hn
  simp only [List.mem_singleton] at this
  subst this
  have : exWsZero.matches' exTrivGoalNode.worldstate = true := by decide
  rw [this] at hfalse
  exact absurd hfalse (by simp)

end RGOAP

namespace RGOAP

/-! ### C1 counterexample instance

Three conditions: 0 is the goal flag (start 0, goal 1), 2 and 3 are two
independent distractor counters (start 0).  The catalog has one expensive
action that achieves the goal directly and two zero-cost counter actions
whose regression chains are long but bounded.  Each individual effect chain
stays far below the iteration ceiling, yet the two cheap chains soak up all
500 loop iterations before the expensive solution node is ever popped. -/

/-- Achieves the goal directly: forward it raises the goal flag, so its
regression lowers it back to the start value; it offers itself exactly on
goal-flag-only worldstates. -/
def exActGBig : Action where
  id := 20
  cost := Frac.ofNat 10
  apply_preconditions := fun ws _ => ws.set 0 (.num 0)
  is_valid := fun _ => true
  has_satisfying_effects := fun ws _ _ =>
    decide (ws.get_condition_value 0 = some (.num 1) ∧
      ws.get_condition_value 2 = none ∧ ws.get_condition_value 3 = none)
  check_freeform_context := true
  run := fun ws => ws

/-- A zero-cost distractor action on counter condition `b` (`b` is 2 or 3):
its regression introduces the counter at 260 and then counts it down; it
offers itself only while the goal flag reads 1 and the other chain's counter
(condition `5 - b`) is untouched, so the two distractor chains never mix. -/
def exActW (b : Nat) : Action where
  id := 20 + b
  cost := Frac.ofNat 0
  apply_preconditions := fun ws _ =>
    match ws.get_condition_value b with
    | none => ws.set b (.num 260)
    | some (.num k) => ws.set b (.num (k - 1))
    | some (.sym _) => ws
  is_valid := fun _ => true
  has_satisfying_effects := fun ws _ _ =>
    (ws.get_condition_value 0 == some (.num 1)) &&
    (ws.get_condition_value (5 - b)).isNone &&
    (match ws.get_condition_value b with
     | none => true
     | some (.num k) => decide (0 < k)
     | some (.sym _) => false)
  check_freeform_context := true
  run := fun ws => ws

def exC1Catalog : List Action := [exActGBig, exActW 2, exActW 3]

def exC1Start : WorldState :=
  ⟨[(0, .num 0), (2, .num 0), (3, .num 0)]⟩

def exC1Goal : Goal := ⟨fun ws => ws.set 0 (.num 1)⟩

/-- The goal node of the counterexample instance, heuristic computed. -/
def exC1GoalNode : Node :=
  .mk ⟨[(0, .num 1)]⟩ none [] [] [] (some (Frac.ofNat 1))

/-- The expensive solution node: the goal action's child of the goal node.
Its worldstate agrees with the start worldstate, so popping it would end the
search -- but its total cost 10 keeps it behind the cheap distractor nodes
until the iteration ceiling hits. -/
def exC1SolNode : Node :=
  .mk ⟨[(0, .num 0), (0, .num 1)]⟩ (some exActGBig) [] [exC1GoalNode]
    [exActGBig] (some (Frac.ofNat 0))

example : (Node.mk (exC1Goal.apply_preconditions ⟨[]⟩) none [] [] []
    none).calc_heuristic_distance_for_node exC1Start = .ok exC1GoalNode := rfl

example : exC1Catalog.filter (fun a => a.check_freeform_context) =
    exC1Catalog := rfl

/-! Basic worldstate lookup lemmas -/

theorem WorldState.get_set (ws : WorldState) (c : Nat) (v : Value) (c' : Nat) :
    (ws.set c v).get_condition_value c' =
      if c' = c then some v else ws.get_condition_value c' := by
  rw [WorldState.set, WorldState.get_condition_value, WorldState.get_condition_value]
  show List.lookup c' ((c, v) :: ws.vals) = _
  rw [List.lookup]
  by_cases h : c' = c
  · simp [h]
  · have hb : (c' == c) = false := beq_eq_false_iff_ne.mpr h
    rw [hb, if_neg h]


theorem lookup_isSome_iff : ∀ (l : List (Nat × Value)) (c : Nat),
    (List.lookup c l).isSome = true ↔ c ∈ l.map Prod.fst := by
  intro l c
  induction l with
  | nil => simp [List.lookup]
  | cons p l ih =>
    obtain ⟨k, v⟩ := p
    rw [List.lookup]
    by_cases h : c = k
    · subst h; simp
    · have hb : (c == k) = false := beq_eq_false_iff_ne.mpr h
      rw [hb]
      simp [h, ih]

theorem mem_dom_iff {ws : WorldState} {c : Nat} :
    c ∈ ws.dom ↔ (ws.get_condition_value c).isSome = true := by
  rw [WorldState.dom, WorldState.get_condition_value, List.mem_dedup,
    lookup_isSome_iff]

/-! Cheap/expensive split of the open collection in the counterexample run -/

/-- Total cost at most 2: the counterexample run's distractor-chain nodes. -/
def LowNode (n : Node) : Prop := n.total_cost ≤ Frac.ofNat 2

/-- Total cost at least 10: nodes carrying the expensive goal action. -/
def HighNode (n : Node) : Prop := Frac.ofNat 10 ≤ n.total_cost

instance decLowNode : DecidablePred LowNode := fun n =>
  inferInstanceAs (Decidable (n.total_cost ≤ Frac.ofNat 2))

theorem low_not_high {n : Node} (hl : LowNode n) (hh : HighNode n) : False := by
  have h : Frac.ofNat 10 ≤ Frac.ofNat 2 := Frac.le_trans hh hl
  exact absurd h (by decide)

theorem insert_high_all {x : Node} (hx : HighNode x) :
    ∀ T : List Node, (∀ t ∈ T, HighNode t) →
      ∃ T1, insertByCost x T = T1 ∧ ∀ t ∈ T1, HighNode t := by
  intro T
  induction T with
  | nil => exact fun _ => ⟨[x], rfl, by simpa using hx⟩
  | cons t T2 ih =>
    intro hT
    by_cases h : t.total_cost < x.total_cost
    · obtain ⟨T1, heq, hT1⟩ := ih fun u hu => hT u (List.mem_cons_of_mem t hu)
      refine ⟨t :: T1, ?_, ?_⟩
      · rw [insertByCost, if_pos h, heq]
      · intro u hu
        rcases List.mem_cons.mp hu with h1 | h1
        · exact h1 ▸ hT t (List.mem_cons_self t T2)
        · exact hT1 u h1
    · refine ⟨x :: t :: T2, by rw [insertByCost, if_neg h], ?_⟩
      intro u hu
      rcases List.mem_cons.mp hu with h1 | h1
      · exact h1 ▸ hx
      · exact hT u h1

theorem insert_low_keeps {x : Node} {T : List Node} (hx : LowNode x)
    (hT : ∀ t ∈ T, HighNode t) :
    ∀ S : List Node, ∃ S1, insertByCost x (S ++ T) = S1 ++ T ∧
      S1.Perm (x :: S) := by
  intro S
  induction S with
  | nil =>
    cases T with
    | nil => exact ⟨[x], rfl, List.Perm.refl _⟩
    | cons t T2 =>
      have hht : HighNode t := hT t (List.mem_cons_self t T2)
      have hcond : ¬ t.total_cost < x.total_cost := by
        intro hlt
        have h1 : Frac.ofNat 10 < x.total_cost := Frac.lt_of_le_of_lt hht hlt
        have h2 : Frac.ofNat 10 < Frac.ofNat 2 := Frac.lt_of_lt_of_le h1 hx
        exact absurd h2 (by decide)
      exact ⟨[x], by rw [List.nil_append, insertByCost, if_neg hcond]; rfl,
        List.Perm.refl _⟩
  | cons s S2 ih =>
    by_cases h : s.total_cost < x.total_cost
    · obtain ⟨S1, heq, hperm⟩ := ih
      refine ⟨s :: S1, ?_, ?_⟩
      · rw [List.cons_append, insertByCost, if_pos h, heq]; rfl
      · exact (hperm.cons s).trans (List.Perm.swap x s S2)
    · exact ⟨x :: s :: S2,
        by rw [List.cons_append, insertByCost, if_neg h]; rfl,
        List.Perm.refl _⟩

theorem insert_high_keeps {x : Node} {T : List Node} (hx : HighNode x)
    (hT : ∀ t ∈ T, HighNode t) :
    ∀ S : List Node, (∀ s ∈ S, LowNode s) →
      ∃ T1, insertByCost x (S ++ T) = S ++ T1 ∧ ∀ t ∈ T1, HighNode t := by
  intro S
  induction S with
  | nil =>
    intro _
    obtain ⟨T1, heq, hT1⟩ := insert_high_all hx T hT
    exact ⟨T1, by rw [List.nil_append, heq]; rfl, hT1⟩
  | cons s S2 ih =>
    intro hS
    have hcond : s.total_cost < x.total_cost := by
      have h1 : Frac.ofNat 2 < x.total_cost :=
        Frac.lt_of_lt_of_le (by decide) hx
      exact Frac.lt_of_le_of_lt (hS s (List.mem_cons_self s S2)) h1
    obtain ⟨T1, heq, hT1⟩ := ih fun u hu => hS u (List.mem_cons_of_mem s hu)
    exact ⟨T1, by rw [List.cons_append, insertByCost, if_pos hcond, heq]; rfl,
      hT1⟩

/-- A stable sort of a deque of cheap and expensive nodes puts a permutation
of the cheap ones in front of the expensive ones. -/
theorem sortByCost_split : ∀ L : List Node,
    (∀ x ∈ L, LowNode x ∨ HighNode x) →
    ∃ S T, sortByCost L = S ++ T ∧
      S.Perm (L.filter fun x => decide (LowNode x)) ∧
      (∀ t ∈ T, HighNode t) := by
  intro L
  induction L with
  | nil => exact fun _ => ⟨[], [], rfl, List.Perm.refl _, by simp⟩
  | cons x L2 ih =>
    intro hL
    obtain ⟨S, T, hsort, hperm, hT⟩ :=
      ih fun y hy => hL y (List.mem_cons_of_mem x hy)
    have hSlow : ∀ s ∈ S, LowNode s := by
      intro s hs
      have h1 := hperm.mem_iff.mp hs
      exact of_decide_eq_true (List.mem_filter.mp h1).2
    rcases hL x (List.mem_cons_self x L2) with hlow | hhigh
    · obtain ⟨S1, heq, hp⟩ := insert_low_keeps hlow hT S
      refine ⟨S1, T, ?_, ?_, hT⟩
      · rw [sortByCost, hsort, heq]
      · rw [List.filter_cons,
          if_pos (show decide (LowNode x) = true from decide_eq_true hlow)]
        exact hp.trans (hperm.cons x)
    · obtain ⟨T1, heq, hT1⟩ := insert_high_keeps hhigh hT S hSlow
      refine ⟨S, T1, ?_, ?_, hT1⟩
      · rw [sortByCost, hsort, heq]
      · rw [List.filter_cons, if_neg (show ¬ decide (LowNode x) = true from
          fun hd => low_not_high (of_decide_eq_true hd) hhigh)]
        exact hperm


/-- The shape of a distractor-chain worldstate: the goal flag still reads 1,
the chain's own counter `b` holds `v`, the other chain's counter is
untouched, and only `b` and 0 are recorded. -/
def ChainState (b : Nat) (v : Int) (ws : WorldState) : Prop :=
  ws.get_condition_value 0 = some (.num 1) ∧
  ws.get_condition_value b = some (.num v) ∧
  ws.get_condition_value (5 - b) = none ∧
  ws.dom = [b, 0]

/-- A distractor-chain node of the counterexample run. -/
def CheapChainNode (n : Node) : Prop :=
  ∃ (b : Nat) (v : Int), (b = 2 ∨ b = 3) ∧ 0 ≤ v ∧ v ≤ 260 ∧
    n.action = some (exActW b) ∧
    n.possible_prev_nodes = [] ∧
    n.parent_nodes_path_list.head? = some exC1GoalNode ∧
    (∀ p ∈ n.parent_nodes_path_list, p.cost = Frac.ofNat 0) ∧
    ChainState b v n.worldstate ∧
    ((0 < v ∧ n.heuristic_distance = some (Frac.ofNat 2)) ∨
     (v = 0 ∧ n.heuristic_distance = some (Frac.ofNat 1)))

/-- How many more cheap pops a distractor node can feed the loop: its
counter value plus one. -/
def nodeSupply (n : Node) : Nat :=
  match n.worldstate.get_condition_value 2,
    n.worldstate.get_condition_value 3 with
  | some (.num v), _ => v.toNat + 1
  | none, some (.num v) => v.toNat + 1
  | _, _ => 0

def cheapSupply (S : List Node) : Nat := (S.map nodeSupply).sum

theorem cheap_supply {n : Node} {b : Nat} {v : Int} (hb : b = 2 ∨ b = 3)
    (h : ChainState b v n.worldstate) :
    nodeSupply n = v.toNat + 1 := by
  obtain ⟨h0, hbv, h5, hdom⟩ := h
  rcases hb with rfl | rfl
  · rw [nodeSupply, hbv]
  · have h2 : n.worldstate.get_condition_value 2 = none := h5
    rw [nodeSupply, h2, hbv]

/-- Setting the chain counter keeps the domain. -/
theorem chain_set_dom {b : Nat} {ws : WorldState} (hdom : ws.dom = [b, 0])
    (x : Value) : (ws.set b x).dom = [b, 0] := by
  have hbmem : b ∈ ws.vals.map Prod.fst := by
    have hm : b ∈ ws.dom := by rw [hdom]; exact List.mem_cons_self _ _
    exact List.mem_dedup.mp hm
  show ((( b, x) :: ws.vals).map Prod.fst).dedup = [b, 0]
  rw [List.map_cons, List.dedup_cons_of_mem hbmem]
  exact hdom

/-- The unsatisfied conditions of a regressed chain state against the start
worldstate. -/
theorem chain_set_unsat {b : Nat} {ws : WorldState} (hb : b = 2 ∨ b = 3)
    (hdom : ws.dom = [b, 0])
    (h0 : ws.get_condition_value 0 = some (.num 1)) (v2 : Int) :
    (ws.set b (.num v2)).get_unsatisfied_conditions exC1Start =
      if v2 = 0 then [0] else [b, 0] := by
  have hb0 : (0 : Nat) ≠ b := by rcases hb with rfl | rfl <;> decide
  have hsb : exC1Start.get_condition_value b = some (.num 0) := by
    rcases hb with rfl | rfl <;> rfl
  have hgb : (ws.set b (.num v2)).get_condition_value b = some (.num v2) := by
    rw [WorldState.get_set, if_pos rfl]
  have hg0 : (ws.set b (.num v2)).get_condition_value 0 = some (.num 1) := by
    rw [WorldState.get_set, if_neg hb0]; exact h0
  rw [WorldState.get_unsatisfied_conditions, chain_set_dom hdom,
    List.filter_cons, List.filter_cons, List.filter_nil]
  by_cases hv2 : v2 = 0
  · rw [if_pos hv2]
    rw [if_neg ?hcb, if_pos ?hc0]
    case hcb =>
      rw [hsb, hgb, hv2]
      simp
    case hc0 =>
      rw [hg0]
      simp [exC1Start, WorldState.get_condition_value, List.lookup]
  · rw [if_neg hv2]
    rw [if_pos ?hcb2, if_pos ?hc02]
    case hcb2 =>
      rw [hsb, hgb]
      simpa using fun he => hv2 he.symm
    case hc02 =>
      rw [hg0]
      simp [exC1Start, WorldState.get_condition_value, List.lookup]


theorem start_get_zero :
    exC1Start.get_condition_value 0 = some (.num 0) := rfl

/-- On a mid-chain state (counter still positive) the planner's action filter
keeps exactly the chain's own counter action. -/
theorem chain_helpful_pos {b : Nat} {v : Int} {ws : WorldState}
    (hb : b = 2 ∨ b = 3) (h : ChainState b v ws) (hv : 0 < v) :
    Planner.filter_matching_actions exC1Start ws exC1Catalog = [exActW b] := by
  obtain ⟨h0, hbv, h5, hdom⟩ := h
  have hG : ∀ u, exActGBig.has_satisfying_effects ws exC1Start u = false := by
    intro u
    rcases hb with rfl | rfl <;> simp [exActGBig, hbv]
  have hWown : ∀ u, (exActW b).has_satisfying_effects ws exC1Start u
      = true := by
    intro u
    simp [exActW, h0, h5, hbv, hv]
  have hWother : ∀ u, (exActW (5 - b)).has_satisfying_effects ws exC1Start u
      = false := by
    intro u
    rcases hb with rfl | rfl <;> simp [exActW, hbv]
  rcases hb with rfl | rfl <;>
  · norm_num at hWother
    simp [Planner.filter_matching_actions, exC1Catalog, hG, hWown, hWother]

/-- On an exhausted chain state (counter zero) the planner's action filter
keeps nothing. -/
theorem chain_helpful_zero {b : Nat} {ws : WorldState}
    (hb : b = 2 ∨ b = 3) (h : ChainState b 0 ws) :
    Planner.filter_matching_actions exC1Start ws exC1Catalog = [] := by
  obtain ⟨h0, hbv, h5, hdom⟩ := h
  have hG : ∀ u, exActGBig.has_satisfying_effects ws exC1Start u = false := by
    intro u
    rcases hb with rfl | rfl <;> simp [exActGBig, hbv]
  have hWown : ∀ u, (exActW b).has_satisfying_effects ws exC1Start u
      = false := by
    intro u
    simp [exActW, h0, h5, hbv]
  have hWother : ∀ u, (exActW (5 - b)).has_satisfying_effects ws exC1Start u
      = false := by
    intro u
    rcases hb with rfl | rfl <;> simp [exActW, hbv]
  rcases hb with rfl | rfl <;>
  · norm_num at hWother
    simp [Planner.filter_matching_actions, exC1Catalog, hG, hWown, hWother]

/-- The start worldstate never matches a chain state (the goal flag
differs). -/
theorem chain_not_matches {b : Nat} {v : Int} {ws : WorldState}
    (h : ChainState b v ws) : exC1Start.matches' ws = false := by
  obtain ⟨h0, hbv, h5, hdom⟩ := h
  rw [WorldState.matches', hdom]
  simp [h0, start_get_zero]


/-- Heuristic of a freshly regressed chain child: 2 while its counter is
still positive (counter condition plus goal flag disagree with the start),
1 once the counter hits 0 (only the goal flag disagrees). -/
theorem wchild_heuristic {b : Nat} {ws : WorldState} {P : List Node}
    {A : List Action} (hb : b = 2 ∨ b = 3) (hdom : ws.dom = [b, 0])
    (h0 : ws.get_condition_value 0 = some (.num 1))
    (hP : P.head? = some exC1GoalNode) (v2 : Int) :
    Node.calc_heuristic_distance_for_node
      (Node.mk (ws.set b (.num v2)) (some (exActW b)) [] P A none) exC1Start =
    .ok (Node.mk (ws.set b (.num v2)) (some (exActW b)) [] P A
      (some (if v2 = 0 then Frac.ofNat 1 else Frac.ofNat 2))) := by
  have hb0 : (0 : Nat) ≠ b := by rcases hb with rfl | rfl <;> decide
  have hunsat := chain_set_unsat hb hdom h0 v2
  have hgoalb : exC1GoalNode.worldstate.get_condition_value b = none := by
    rcases hb with rfl | rfl <;> rfl
  have hg0c : (ws.set b (.num v2)).get_condition_value 0 = some (.num 1) := by
    rw [WorldState.get_set, if_neg hb0]; exact h0
  have hcdb : conditionDistance exC1GoalNode.worldstate (ws.set b (.num v2))
      exC1Start b = .ok (Frac.ofNat 1) := by
    unfold conditionDistance
    rw [hgoalb]
    rfl
  have hcd0 : conditionDistance exC1GoalNode.worldstate (ws.set b (.num v2))
      exC1Start 0 = .ok (Frac.ofNat 1) := by
    unfold conditionDistance
    rw [hg0c]
    rfl
  rw [Node.calc_heuristic_distance_for_node]
  simp only [Node.heuristic_distance_mk, Option.isSome_none,
    Bool.false_eq_true, if_false, Node.worldstate_mk, Node.action_mk,
    Node.parent_nodes_path_list_mk, hunsat, hP]
  by_cases hv2 : v2 = 0
  · simp only [if_pos hv2, List.foldlM_cons, List.foldlM_nil, hcd0]
    rfl
  · simp only [if_neg hv2, List.foldlM_cons, List.foldlM_nil, hcdb, hcd0]
    rfl


theorem catalog_freeform :
    exC1Catalog.filter (fun a => a.check_freeform_context) = exC1Catalog :=
  rfl

/-- Expanding a mid-chain distractor node yields exactly the next distractor
node down the chain, which consumes one unit of cheap supply. -/
theorem cheap_expansion_pos {n : Node} {b : Nat} {v : Int}
    (hb : b = 2 ∨ b = 3) (hv : 0 < v) (hvle : v ≤ 260)
    (hact : n.action = some (exActW b))
    (hpp : n.possible_prev_nodes = [])
    (hhead : n.parent_nodes_path_list.head? = some exC1GoalNode)
    (hpar : ∀ p ∈ n.parent_nodes_path_list, p.cost = Frac.ofNat 0)
    (hcs : ChainState b v n.worldstate) :
    ∃ wc n', n.get_child_nodes
      (Planner.filter_matching_actions exC1Start n.worldstate
        (exC1Catalog.filter fun a => a.check_freeform_context)) exC1Start
      = .ok ([wc], n') ∧ CheapChainNode wc ∧
      nodeSupply wc + 1 = nodeSupply n := by
  obtain ⟨h0, hbv, h5, hdom⟩ := hcs
  have hb0 : (0 : Nat) ≠ b := by rcases hb with rfl | rfl <;> decide
  have hb5 : (5 - b : Nat) ≠ b := by rcases hb with rfl | rfl <;> decide
  have happly : (exActW b).apply_preconditions n.worldstate exC1Start =
      n.worldstate.set b (.num (v - 1)) := by
    simp [exActW, hbv]
  have hhead' :
      (n.parent_nodes_path_list ++ [n]).head? = some exC1GoalNode := by
    cases hPn : n.parent_nodes_path_list with
    | nil => rw [hPn] at hhead; exact absurd hhead (by simp)
    | cons p0 P2 => rw [hPn] at hhead; simpa using hhead
  have hcalc := wchild_heuristic (P := n.parent_nodes_path_list ++ [n])
    (A := n.parent_actions_path_list ++ [exActW b]) hb hdom h0 hhead' (v - 1)
  have heq : n.get_child_nodes
      (Planner.filter_matching_actions exC1Start n.worldstate
        (exC1Catalog.filter fun a => a.check_freeform_context)) exC1Start
      = .ok ([Node.mk (n.worldstate.set b (.num (v - 1))) (some (exActW b)) []
      (n.parent_nodes_path_list ++ [n])
      (n.parent_actions_path_list ++ [exActW b])
      (some (if v - 1 = 0 then Frac.ofNat 1 else Frac.ofNat 2))],
      n.setPossiblePrev [Node.mk (n.worldstate.set b (.num (v - 1))) (some (exActW b)) []
      (n.parent_nodes_path_list ++ [n])
      (n.parent_actions_path_list ++ [exActW b])
      (some (if v - 1 = 0 then Frac.ofNat 1 else Frac.ofNat 2))]) := by
    rw [catalog_freeform, chain_helpful_pos hb ⟨h0, hbv, h5, hdom⟩ hv]
    rw [Node.get_child_nodes, hpp]
    simp only [List.isEmpty_nil, Bool.not_true, Bool.false_eq_true, if_false]
    rw [List.foldlM_cons, happly, hcalc]
    rfl
  refine ⟨_, _, heq, ?_, ?_⟩
  · refine ⟨b, v - 1, hb, by omega, by omega, rfl, rfl, ?_, ?_, ?_, ?_⟩
    · simpa using hhead'
    · intro p hp
      rcases (by simpa using hp : p ∈ n.parent_nodes_path_list ∨ p = n)
        with h1 | h1
      · exact hpar p h1
      · rw [h1, Node.cost.eq_def, hact]
        rfl
    · refine ⟨?_, ?_, ?_, ?_⟩
      · show (n.worldstate.set b (.num (v - 1))).get_condition_value 0 = _
        rw [WorldState.get_set, if_neg hb0]; exact h0
      · show (n.worldstate.set b (.num (v - 1))).get_condition_value b = _
        rw [WorldState.get_set, if_pos rfl]
      · show (n.worldstate.set b (.num (v - 1))).get_condition_value (5 - b)
          = none
        rw [WorldState.get_set, if_neg hb5]; exact h5
      · exact chain_set_dom hdom _
    · by_cases hv1 : v - 1 = 0
      · exact Or.inr ⟨hv1, by simp [hv1]⟩
      · exact Or.inl ⟨by omega, by simp [hv1]⟩
  · have hsc : ChainState b (v - 1) (n.worldstate.set b (.num (v - 1))) := by
      refine ⟨?_, ?_, ?_, chain_set_dom hdom _⟩
      · rw [WorldState.get_set, if_neg hb0]; exact h0
      · rw [WorldState.get_set, if_pos rfl]
      · rw [WorldState.get_set, if_neg hb5]; exact h5
    have h1 := cheap_supply (n := Node.mk (n.worldstate.set b (.num (v - 1)))
      (some (exActW b)) [] (n.parent_nodes_path_list ++ [n])
      (n.parent_actions_path_list ++ [exActW b])
      (some (if v - 1 = 0 then Frac.ofNat 1 else Frac.ofNat 2)))
      hb hsc
    have h2 := cheap_supply hb ⟨h0, hbv, h5, hdom⟩
    rw [h1, h2]
    omega

/-- Expanding an exhausted distractor node yields no children. -/
theorem cheap_expansion_zero {n : Node} {b : Nat}
    (hb : b = 2 ∨ b = 3) (hpp : n.possible_prev_nodes = [])
    (hcs : ChainState b 0 n.worldstate) :
    ∃ n', n.get_child_nodes
      (Planner.filter_matching_actions exC1Start n.worldstate
        (exC1Catalog.filter fun a => a.check_freeform_context)) exC1Start
      = .ok ([], n') := by
  refine ⟨n.setPossiblePrev [], ?_⟩
  rw [catalog_freeform, chain_helpful_zero hb hcs]
  rw [Node.get_child_nodes, hpp]
  simp only [List.isEmpty_nil, Bool.not_true, Bool.false_eq_true, if_false]
  rfl


theorem map_cost_sum_zero : ∀ P : List Node,
    (∀ p ∈ P, p.cost = Frac.ofNat 0) →
    (P.map Node.cost).sum = Frac.ofNat 0 := by
  intro P
  induction P with
  | nil => intro _; rfl
  | cons p P2 ih =>
    intro h
    rw [List.map_cons, List.sum_cons, h p (List.mem_cons_self p P2),
      ih fun q hq => h q (List.mem_cons_of_mem p hq)]
    rfl

/-- Distractor-chain nodes are cheap: total cost at most 2. -/
theorem cheap_low {n : Node} (h : CheapChainNode n) : LowNode n := by
  obtain ⟨b, v, hb, hv0, hv260, hact, hpp, hhead, hpar, hcs, hheur⟩ := h
  have hcost : n.cost = Frac.ofNat 0 := by
    rw [Node.cost.eq_def, hact]
    rfl
  have hsum := map_cost_sum_zero _ hpar
  rw [LowNode, Node.total_cost, Node.path_cost, hcost, hsum]
  rcases hheur with ⟨_, hh⟩ | ⟨_, hh⟩ <;> rw [hh] <;> decide

/-- The counterexample's main loop invariant: while the open deque splits
into distractor-chain nodes in front of expensive nodes and the cheap
supply covers the remaining fuel, the loop runs out of iterations and
reports no plan. -/
theorem exC1_loop_none : ∀ (fuel : Nat) (S T : List Node),
    (∀ x ∈ S, CheapChainNode x) → (∀ t ∈ T, HighNode t) →
    fuel ≤ cheapSupply S →
    Planner.planLoop exC1Start
      (exC1Catalog.filter fun a => a.check_freeform_context) (S ++ T) fuel =
      .ok none := by
  intro fuel
  induction fuel with
  | zero =>
    intro S T _ _ _
    cases hST : S ++ T with
    | nil => rw [Planner.planLoop]
    | cons x r => rw [Planner.planLoop]
  | succ fuel ih =>
    intro S T hS hT hfuel
    cases S with
    | nil => exact absurd hfuel (by simp [cheapSupply])
    | cons x S2 =>
      have hxc := hS x (List.mem_cons_self x S2)
      obtain ⟨b, v, hb, hv0, hv260, hact, hpp, hhead, hpar, hcs, hheur⟩ := hxc
      have hsupx := cheap_supply hb hcs
      have hS2 : ∀ y ∈ S2, CheapChainNode y :=
        fun y hy => hS y (List.mem_cons_of_mem x hy)
      have hLH : ∀ y ∈ S2 ++ T, LowNode y ∨ HighNode y := by
        intro y hy
        rcases List.mem_append.mp hy with h1 | h1
        · exact Or.inl (cheap_low (hS2 y h1))
        · exact Or.inr (hT y h1)
      have hfS2 : (S2 ++ T).filter (fun y => decide (LowNode y)) = S2 := by
        rw [List.filter_append]
        rw [List.filter_eq_self.mpr
          fun a ha => decide_eq_true (cheap_low (hS2 a ha))]
        rw [List.filter_eq_nil_iff.mpr
          fun a ha hd => low_not_high (of_decide_eq_true hd) (hT a ha)]
        exact List.append_nil S2
      rw [List.cons_append, Planner.planLoop]
      simp only [chain_not_matches hcs, Bool.false_eq_true, if_false]
      by_cases hv : v = 0
      · obtain ⟨n', hexp⟩ := cheap_expansion_zero hb hpp (hv ▸ hcs)
        simp only [hexp, Except.bind, Bind.bind, List.append_nil]
        obtain ⟨S3, T3, hsort, hperm, hT3⟩ := sortByCost_split (S2 ++ T) hLH
        rw [hsort]
        have hS3 : ∀ y ∈ S3, CheapChainNode y := by
          intro y hy
          have h1 := hperm.mem_iff.mp hy
          rw [hfS2] at h1
          exact hS2 y h1
        have hsup3 : cheapSupply S3 = cheapSupply S2 := by
          rw [cheapSupply, cheapSupply, List.Perm.sum_eq (hperm.map nodeSupply)]
          rw [hfS2]
        have hc : cheapSupply (x :: S2) = nodeSupply x + cheapSupply S2 := by
          simp [cheapSupply]
        refine ih S3 T3 hS3 hT3 ?_
        rw [hsup3]
        rw [hc] at hfuel
        omega
      · obtain ⟨wc, n', hexp, hwc, hwsup⟩ := cheap_expansion_pos hb
          (lt_of_le_of_ne hv0 (Ne.symm hv)) hv260 hact hpp hhead hpar hcs
        simp only [hexp, Except.bind, Bind.bind]
        have hLH2 : ∀ y ∈ S2 ++ T ++ [wc], LowNode y ∨ HighNode y := by
          intro y hy
          rcases List.mem_append.mp hy with h1 | h1
          · exact hLH y h1
          · have hywc2 : y = wc := by simpa using h1
            exact Or.inl (hywc2 ▸ cheap_low hwc)
        obtain ⟨S3, T3, hsort, hperm, hT3⟩ :=
          sortByCost_split (S2 ++ T ++ [wc]) hLH2
        rw [hsort]
        have hfwc : (S2 ++ T ++ [wc]).filter (fun y => decide (LowNode y)) =
            S2 ++ [wc] := by
          rw [List.filter_append, hfS2]
          congr 1
          rw [List.filter_cons, if_pos (show decide (LowNode wc) = true from
            decide_eq_true (cheap_low hwc)), List.filter_nil]
        have hS3 : ∀ y ∈ S3, CheapChainNode y := by
          intro y hy
          have h1 := hperm.mem_iff.mp hy
          rw [hfwc] at h1
          rcases List.mem_append.mp h1 with h2 | h2
          · exact hS2 y h2
          · have hywc : y = wc := by simpa using h2
            exact hywc ▸ hwc
        have hsup3 : cheapSupply S3 = cheapSupply S2 + nodeSupply wc := by
          rw [cheapSupply, List.Perm.sum_eq (hperm.map nodeSupply), hfwc]
          rw [List.map_append, List.sum_append]
          simp [cheapSupply]
        have hc : cheapSupply (x :: S2) = nodeSupply x + cheapSupply S2 := by
          simp [cheapSupply]
        refine ih S3 T3 hS3 hT3 ?_
        rw [hsup3]
        rw [hc] at hfuel
        omega


/-- The head of distractor chain 2: the counter-action child of the goal
node. -/
def exC1W2Node : Node :=
  .mk ⟨[(2, .num 260), (0, .num 1)]⟩ (some (exActW 2)) [] [exC1GoalNode]
    [exActW 2] (some (Frac.ofNat 2))

/-- The head of distractor chain 3. -/
def exC1W3Node : Node :=
  .mk ⟨[(3, .num 260), (0, .num 1)]⟩ (some (exActW 3)) [] [exC1GoalNode]
    [exActW 3] (some (Frac.ofNat 2))

instance decHighNode : DecidablePred HighNode := fun n =>
  inferInstanceAs (Decidable (Frac.ofNat 10 ≤ n.total_cost))

theorem exC1_first_expansion :
    exC1GoalNode.get_child_nodes
      (Planner.filter_matching_actions exC1Start exC1GoalNode.worldstate
        (exC1Catalog.filter fun a => a.check_freeform_context)) exC1Start =
    .ok ([exC1SolNode, exC1W2Node, exC1W3Node],
      Node.mk ⟨[(0, .num 1)]⟩ none [exC1SolNode, exC1W2Node, exC1W3Node]
        [] [] (some (Frac.ofNat 1))) := rfl

theorem exC1_first_sort :
    sortByCost ([] ++ [exC1SolNode, exC1W2Node, exC1W3Node]) =
      [exC1W2Node, exC1W3Node, exC1SolNode] := rfl

theorem exC1W2_cheap : CheapChainNode exC1W2Node :=
  ⟨2, 260, Or.inl rfl, by decide, by decide, rfl, rfl, rfl,
    fun p hp => by rw [List.mem_singleton.mp hp]; rfl,
    ⟨rfl, rfl, rfl, rfl⟩, Or.inl ⟨by decide, rfl⟩⟩

theorem exC1W3_cheap : CheapChainNode exC1W3Node :=
  ⟨3, 260, Or.inr rfl, by decide, by decide, rfl, rfl, rfl,
    fun p hp => by rw [List.mem_singleton.mp hp]; rfl,
    ⟨rfl, rfl, rfl, rfl⟩, Or.inl ⟨by decide, rfl⟩⟩

/-- The planner exhausts its 500-iteration ceiling on the two cheap
distractor chains and reports no plan, although `exC1SolNode` sits in the
open deque the whole time. -/
theorem except_ok_bind {α β : Type} (a : α) (f : α → Except PyExc β) :
    (Except.ok a >>= f) = f a := rfl

/-- One symbolic-fuel step from the goal node: the first iteration expands
the goal node into the solution node and the two chain heads, and the cheap
chains then absorb all remaining fuel. -/
theorem exC1_goal_step : ∀ fuel : Nat,
    fuel ≤ cheapSupply [exC1W2Node, exC1W3Node] →
    Planner.planLoop exC1Start
      (exC1Catalog.filter fun a => a.check_freeform_context)
      [exC1GoalNode] (fuel + 1) = .ok none := by
  intro fuel hf
  rw [Planner.planLoop]
  rw [if_neg (by decide :
    ¬ exC1Start.matches' exC1GoalNode.worldstate = true)]
  simp only [exC1_first_expansion, except_ok_bind]
  rw [exC1_first_sort,
    show [exC1W2Node, exC1W3Node, exC1SolNode] =
      [exC1W2Node, exC1W3Node] ++ [exC1SolNode] from rfl]
  refine exC1_loop_none fuel [exC1W2Node, exC1W3Node] [exC1SolNode] ?_ ?_ hf
  · intro x hx
    rcases List.mem_cons.mp hx with h1 | h1
    · exact h1 ▸ exC1W2_cheap
    · rw [List.mem_singleton.mp h1]
      exact exC1W3_cheap
  · intro t ht
    rw [List.mem_singleton.mp ht]
    decide

/-- The planner exhausts its 500-iteration ceiling on the two cheap
distractor chains and reports no plan, although `exC1SolNode` sits in the
open deque the whole time. -/
theorem exC1_plan_none :
    Planner.plan exC1Catalog exC1Start exC1Goal = .ok none := by
  simp only [Planner.plan]
  rw [show (Node.mk (exC1Goal.apply_preconditions ⟨[]⟩) none [] [] []
      none).calc_heuristic_distance_for_node exC1Start =
    .ok exC1GoalNode from rfl]
  rw [except_ok_bind]
  exact exC1_goal_step 499 (by decide)


/-- The size measure of the counterexample's regression space: one unit for
the raised goal flag, plus the joint state of the two counters (262 while
both are untouched, counter value plus one once a chain has begun). -/
def phi (ws : WorldState) : Nat :=
  (if ws.get_condition_value 0 = some (.num 1) then 1 else 0) +
  (match ws.get_condition_value 2, ws.get_condition_value 3 with
   | none, none => 262
   | some (.num k), _ => k.toNat + 1
   | none, some (.num k) => k.toNat + 1
   | _, _ => 0)

theorem phi_goal : phi exC1GoalNode.worldstate = 263 := rfl

/-- Every applicable catalog action strictly shrinks the measure, so every
regression chain of the counterexample instance is short and acyclic. -/
theorem phi_step {ws : WorldState} {a : Action} {u : List Nat}
    (ha : a ∈ exC1Catalog)
    (hsat : a.has_satisfying_effects ws exC1Start u = true) :
    phi (a.apply_preconditions ws exC1Start) < phi ws := by
  have hmem : a = exActGBig ∨ a = exActW 2 ∨ a = exActW 3 := by
    simpa [exC1Catalog] using ha
  rcases hmem with rfl | rfl | rfl
  · have hc := of_decide_eq_true hsat
    obtain ⟨h0, h2, h3⟩ := hc
    show phi (ws.set 0 (.num 0)) < phi ws
    rw [phi, phi, WorldState.get_set, WorldState.get_set, WorldState.get_set]
    simp [h0, h2, h3]
  · have hc : (ws.get_condition_value 0 == some (.num 1)) = true ∧
        (ws.get_condition_value 3).isNone = true ∧
        (match ws.get_condition_value 2 with
         | none => true
         | some (.num k) => decide (0 < k)
         | some (.sym _) => false) = true := by
      simpa [exActW, Bool.and_assoc] using hsat
    obtain ⟨hb0, hb3, hb2⟩ := hc
    have h0 : ws.get_condition_value 0 = some (.num 1) := by
      exact beq_iff_eq.mp hb0
    have h3 : ws.get_condition_value 3 = none :=
      Option.isNone_iff_eq_none.mp hb3
    show phi ((match ws.get_condition_value 2 with
      | none => ws.set 2 (.num 260)
      | some (.num k) => ws.set 2 (.num (k - 1))
      | some (.sym _) => ws) : WorldState) < phi ws
    cases hg2 : ws.get_condition_value 2 with
    | none =>
      show phi (ws.set 2 (.num 260)) < phi ws
      rw [phi, phi, WorldState.get_set, WorldState.get_set, WorldState.get_set]
      simp [h0, hg2, h3]
    | some v =>
      rw [hg2] at hb2
      cases v with
      | sym s2 => exact absurd hb2 (by simp)
      | num k =>
        have hk : 0 < k := of_decide_eq_true hb2
        show phi (ws.set 2 (.num (k - 1))) < phi ws
        rw [phi, phi, WorldState.get_set, WorldState.get_set,
          WorldState.get_set]
        simp [h0, hg2, h3]
        omega
  · have hc : (ws.get_condition_value 0 == some (.num 1)) = true ∧
        (ws.get_condition_value 2).isNone = true ∧
        (match ws.get_condition_value 3 with
         | none => true
         | some (.num k) => decide (0 < k)
         | some (.sym _) => false) = true := by
      simpa [exActW, Bool.and_assoc] using hsat
    obtain ⟨hb0, hb2, hb3⟩ := hc
    have h0 : ws.get_condition_value 0 = some (.num 1) := by
      exact beq_iff_eq.mp hb0
    have h2 : ws.get_condition_value 2 = none :=
      Option.isNone_iff_eq_none.mp hb2
    show phi ((match ws.get_condition_value 3 with
      | none => ws.set 3 (.num 260)
      | some (.num k) => ws.set 3 (.num (k - 1))
      | some (.sym _) => ws) : WorldState) < phi ws
    cases hg3 : ws.get_condition_value 3 with
    | none =>
      show phi (ws.set 3 (.num 260)) < phi ws
      rw [phi, phi, WorldState.get_set, WorldState.get_set, WorldState.get_set]
      simp [h0, h2, hg3]
    | some v =>
      rw [hg3] at hb3
      cases v with
      | sym s2 => exact absurd hb3 (by simp)
      | num k =>
        have hk : 0 < k := of_decide_eq_true hb3
        show phi (ws.set 3 (.num (k - 1))) < phi ws
        rw [phi, phi, WorldState.get_set, WorldState.get_set,
          WorldState.get_set]
        simp [h0, h2, hg3]
        omega


/-- Equivalent worldstates agree on every condition. -/
theorem wsEquiv_get {w w' : WorldState} (h : wsEquiv w w') (c : Nat) :
    w.get_condition_value c = w'.get_condition_value c := by
  obtain ⟨h1, h2⟩ := h
  rw [WorldState.matches'] at h1 h2
  cases hc : w'.get_condition_value c with
  | some v =>
    have hmem : c ∈ w'.dom := mem_dom_iff.mpr (by rw [hc]; rfl)
    have h3 := List.all_eq_true.mp h1 c hmem
    rw [hc] at h3
    exact beq_iff_eq.mp h3
  | none =>
    cases hw : w.get_condition_value c with
    | none => rfl
    | some v =>
      have hmem : c ∈ w.dom := mem_dom_iff.mpr (by rw [hw]; rfl)
      have h3 := List.all_eq_true.mp h2 c hmem
      rw [hw, hc] at h3
      exact absurd (beq_iff_eq.mp h3) (by simp)

theorem phi_congr {w w' : WorldState} (h : wsEquiv w w') : phi w = phi w' := by
  rw [phi, phi, wsEquiv_get h 0, wsEquiv_get h 2, wsEquiv_get h 3]

/-- One expansion step of the counterexample instance strictly shrinks the
measure. -/
theorem expandRel_phi {a b : Node}
    (h : expandRel exC1Catalog exC1Start a b) :
    phi b.worldstate < phi a.worldstate := by
  obtain ⟨cs, n', hexp, hb⟩ := h
  obtain ⟨act, hd, hact, hb'⟩ := get_child_nodes_mem hexp b hb
  rw [catalog_freeform] at hact
  rw [Planner.filter_matching_actions] at hact
  have hma := List.mem_filter.mp hact
  rw [hb']
  show phi (act.apply_preconditions a.worldstate exC1Start) <
    phi a.worldstate
  exact phi_step hma.1 hma.2

/-- Every node the counterexample's search can reach has a short, acyclic
effect chain: the measure strictly decreases along the chain and is bounded
by its value 263 at the goal node. -/
theorem exC1_reachable_bound {n : Node}
    (hr : Reachable exC1Catalog exC1Start exC1Goal n) :
    n.chainLength < 500 ∧ n.chainAcyclic := by
  obtain ⟨hall, hchain, hroot⟩ := reachable_chain_facts hr
  obtain ⟨rest, hrest⟩ := hroot exC1GoalNode rfl
  have hphi : List.Chain'
      (fun x y => phi y.worldstate < phi x.worldstate) n.chainNodes :=
    List.Chain'.imp (fun x y hxy => expandRel_phi hxy) hchain
  haveI : IsTrans Node (fun x y => phi y.worldstate < phi x.worldstate) :=
    ⟨fun a b c hab hbc => lt_trans hbc hab⟩
  have hpw : n.chainNodes.Pairwise
      (fun x y => phi y.worldstate < phi x.worldstate) :=
    List.chain'_iff_pairwise.mp hphi
  have hbound : ∀ e ∈ n.chainNodes, phi e.worldstate ≤ 263 := by
    intro e he
    rw [hrest] at he hpw
    rcases List.mem_cons.mp he with h1 | h1
    · rw [h1]
      exact le_of_eq phi_goal
    · have h2 := (List.pairwise_cons.mp hpw).1 e h1
      rw [phi_goal] at h2
      omega
  have hnd : (n.chainNodes.map fun e => phi e.worldstate).Nodup :=
    List.Pairwise.map _ (fun a b hab => Nat.ne_of_gt hab) hpw
  have hsub : (n.chainNodes.map fun e => phi e.worldstate) ⊆
      List.range 264 := by
    intro x hx
    obtain ⟨e, he, hfe⟩ := List.mem_map.mp hx
    refine List.mem_range.mpr ?_
    have := hbound e he
    omega
  have hlen : (n.chainNodes.map fun e => phi e.worldstate).length ≤ 264 := by
    have h1 := (hnd.subperm hsub).length_le
    simpa using h1
  constructor
  · rw [Node.chainLength]
    rw [List.length_map] at hlen
    omega
  · rw [Node.chainAcyclic]
    refine List.Pairwise.map _ ?_ hpw
    intro a b hab heq
    rw [phi_congr heq] at hab
    exact lt_irrefl _ hab


theorem exC1_sol_reachable :
    Reachable exC1Catalog exC1Start exC1Goal exC1SolNode :=
  Reachable.child exC1GoalNode [exC1SolNode, exC1W2Node, exC1W3Node] _
    exC1SolNode (Reachable.root exC1GoalNode rfl) exC1_first_expansion
    (List.mem_cons_self _ _)

/-- C1, counterexample to the claim as stated: a solvable triple -- the
start worldstate matches the reachable node `exC1SolNode`, whose forward
walk along `parent_node()` links reaches a goal node -- in which every
reachable node's effect chain is acyclic and far shorter than the
500-iteration ceiling, yet `plan()` returns None: the two cheap distractor
chains keep the expensive solution node behind them in the cost-ordered
deque until the iteration ceiling fires. -/
theorem C1_counterexample :
    Planner.plan exC1Catalog exC1Start exC1Goal = .ok none ∧
    Reachable exC1Catalog exC1Start exC1Goal exC1SolNode ∧
    exC1Start.matches' exC1SolNode.worldstate = true ∧
    forwardWalkReachesGoal exC1SolNode.parent_nodes_path_list.length
      exC1SolNode = true ∧
    exC1SolNode.chainLength < 500 ∧
    ∀ n, Reachable exC1Catalog exC1Start exC1Goal n →
      n.chainLength < 500 ∧ n.chainAcyclic :=
  ⟨exC1_plan_none, exC1_sol_reachable, by decide, by decide, by decide,
    fun n hn => exC1_reachable_bound hn⟩

end RGOAP
